import Mathlib

/-!
Verification development for `syosetu2epub.py`, a web-novel downloader.

Strings are modelled as `List Char` (Python `str` is a sequence of code
points).  Each definition is a shallow embedding of the Python function of
the same (or snake-cased) name from `src/syosetu2epub.py`; stateful code is
modelled by explicit state passing, concurrency by explicit completion
orders, and real time by rational-valued timestamps.
-/

namespace Syosetu2Epub

/-- Characters accepted by Python's `str.isdigit` among those this program
can encounter at the decimal-point test: ASCII digits and their full-width
equivalents (Unicode category Nd; other Nd characters are not produced by
the translation tables and are immaterial here). -/
def pyIsDigit (c : Char) : Bool :=
  (('0' ≤ c && c ≤ '9') || ('０' ≤ c && c ≤ '９'))

/-- Characters treated as whitespace by Python's `str.isspace` / `str.strip`
on the repertoire relevant to this program: ASCII whitespace and the
ideographic space. -/
def pyIsSpace (c : Char) : Bool :=
  (c = ' ' || c = '\t' || c = '\n' || c = '\r' ||
   c = Char.ofNat 11 || c = Char.ofNat 12 || c = Char.ofNat 0xa0 ||
   c = Char.ofNat 0x3000)

/-- Membership test on a character list, modelling Python's `ch in text`. -/
def elemChar (c : Char) : List Char → Bool
  | [] => false
  | d :: rest => (d = c) || elemChar c rest

/-- Boolean prefix test: the first list is an initial run of the second. -/
def isPrefixOfB : List Char → List Char → Bool
  | [], _ => true
  | _ :: _, [] => false
  | a :: as, b :: bs => (a = b) && isPrefixOfB as bs

/-- Substring test, modelling Python's `pat in text` for string `pat`. -/
def containsSub (pat : List Char) : List Char → Bool
  | [] => isPrefixOfB pat []
  | l@(_ :: rest) => isPrefixOfB pat l || containsSub pat rest

/-- First-match association lookup on a character translation table. -/
def tableLookup (c : Char) : List (Char × Char) → Option Char
  | [] => none
  | (k, v) :: rest => if k = c then some v else tableLookup c rest

/-- `_JP_PUNCT_MAP`: ASCII punctuation to full-width equivalents. -/
def punctPairs : List (Char × Char) :=
  [('!', '！'), ('?', '？'), (':', '：'), (';', '；'), (',', '，'),
   ('.', '．'), ('(', '（'), (')', '）'), ('[', '［'), (']', '］'),
   ('{', '｛'), ('}', '｝'), ('"', '＂'), ('\'', '＇')]

/-- `_JP_DIGIT_MAP`: ASCII digits to full-width equivalents. -/
def digitPairs : List (Char × Char) :=
  [('0', '０'), ('1', '１'), ('2', '２'), ('3', '３'), ('4', '４'),
   ('5', '５'), ('6', '６'), ('7', '７'), ('8', '８'), ('9', '９')]

/-- `_JP_TEXT_TRANSLATION = str.maketrans({**_JP_PUNCT_MAP, **_JP_DIGIT_MAP})`:
the merged translation table (the key sets are disjoint). -/
def jpTextTranslation : List (Char × Char) := punctPairs ++ digitPairs

/-- One character of `text.translate(_JP_TEXT_TRANSLATION)`. -/
def transChar (c : Char) : Char := (tableLookup c jpTextTranslation).getD c

/-- One non-period character of the `translate_japanese_punct` loop:
`_JP_PUNCT_MAP.get(ch)`, falling back to `_JP_DIGIT_MAP.get(ch)`, falling
back to the character itself. -/
def mapPD (c : Char) : Char :=
  match tableLookup c punctPairs with
  | some m => m
  | none => (tableLookup c digitPairs).getD c

/-- `prev.isdigit()` where `prev` is the previous character or the empty
string at the start of the text (`"".isdigit()` is false). -/
def optIsDigit (o : Option Char) : Bool := o.elim false pyIsDigit

/-- The indexed loop of `translate_japanese_punct` (the branch taken when the
text contains a period): `prev` is the previous original character; the next
original character is the head of the remaining list. -/
def translateLoop (prev : Option Char) : List Char → List Char
  | [] => []
  | c :: rest =>
    (if c = '.' then
      (if optIsDigit prev && optIsDigit rest.head? then '.' else '．')
     else mapPD c) :: translateLoop (some c) rest

/-- `translate_japanese_punct`: full-width translation; when the text has a
period, a per-character loop keeps a period flanked by digits on both sides. -/
def translate_japanese_punct (text : List Char) : List Char :=
  if elemChar '.' text then translateLoop none text
  else text.map transChar

/-- The literal pattern `"http://"`. -/
def httpPat : List Char := "http://".toList

/-- The literal pattern `"https://"`. -/
def httpsPat : List Char := "https://".toList

/-- Case-insensitive single-character match (`re.IGNORECASE` on a letter). -/
def charCI (a c : Char) : Bool := (c = a) || (c = a.toUpper)

/-- Match of the scheme part `https?://` (IGNORECASE) of `_URL_RE` at the
head of the list: returns the matched span and the remainder.  The optional
`s` is tried greedily, as the regex engine does. -/
def matchScheme (l : List Char) : Option (List Char × List Char) :=
  match l with
  | c1 :: c2 :: c3 :: c4 :: rest =>
    if charCI 'h' c1 && charCI 't' c2 && charCI 't' c3 && charCI 'p' c4 then
      match rest with
      | s :: ':' :: '/' :: '/' :: r =>
        -- regex backtracking: dropping the optional `s` would need `://` at
        -- the same spot, impossible when the character after it is `:`.
        if charCI 's' s then some ([c1, c2, c3, c4, s, ':', '/', '/'], r)
        else none
      | ':' :: '/' :: '/' :: r => some ([c1, c2, c3, c4, ':', '/', '/'], r)
      | _ => none
    else none
  | _ => none

theorem matchScheme_shrinks (l m r : List Char) (h : matchScheme l = some (m, r)) :
    r.length < l.length := by
  unfold matchScheme at h
  split at h
  case h_2 => simp at h
  case h_1 c1 c2 c3 c4 rest =>
    split at h
    case isFalse => simp at h
    case isTrue =>
      split at h
      all_goals try (split at h)
      all_goals
        try (simp only [Option.some.injEq, Prod.mk.injEq] at h)
      all_goals
        first
        | (obtain ⟨-, rfl⟩ := h
           simp only [List.length_cons]; omega)
        | simp at h

/-- Match of `_URL_RE = https?://[^\s<>"]+` (IGNORECASE) at the head of the
list: a scheme match followed by a maximal nonempty body run of characters
that are not whitespace, `<`, `>` or `"`. -/
def matchUrl (l : List Char) : Option (List Char × List Char) :=
  match matchScheme l with
  | none => none
  | some (scheme, r) =>
    let body := r.takeWhile fun c => !(pyIsSpace c || c = '<' || c = '>' || c = '"')
    if body = [] then none
    else some (scheme ++ body, r.drop body.length)

theorem matchUrl_shrinks (l m r : List Char) (h : matchUrl l = some (m, r)) :
    r.length < l.length := by
  unfold matchUrl at h
  rcases hs : matchScheme l with _ | ⟨scheme, r0⟩ <;> rw [hs] at h
  · simp at h
  · simp only at h
    by_cases hb : (r0.takeWhile fun c => !(pyIsSpace c || c = '<' || c = '>' || c = '"')) = []
    · rw [if_pos hb] at h; simp at h
    · rw [if_neg hb] at h
      simp only [Option.some.injEq, Prod.mk.injEq] at h
      have hb1 : 1 ≤ (r0.takeWhile fun c => !(pyIsSpace c || c = '<' || c = '>' || c = '"')).length := by
        rcases hbe : (r0.takeWhile fun c => !(pyIsSpace c || c = '<' || c = '>' || c = '"')) with _ | _
        · exact absurd hbe hb
        · simp [hbe]
      have htw : (r0.takeWhile fun c => !(pyIsSpace c || c = '<' || c = '>' || c = '"')).length ≤ r0.length :=
        (List.takeWhile_prefix _).length_le
      have hr : r = r0.drop ((r0.takeWhile fun c => !(pyIsSpace c || c = '<' || c = '>' || c = '"')).length) := h.2.symm
      have hlen : r.length = r0.length - (r0.takeWhile fun c => !(pyIsSpace c || c = '<' || c = '>' || c = '"')).length := by
        rw [hr, List.length_drop]
      have h0 : r0.length < l.length := matchScheme_shrinks l scheme r0 hs
      omega

/-- The URL-splitting branch of `normalize_japanese_punct`: translate the gap
before each URL match, pass the matched URL through untouched, translate the
final gap.  `gap` accumulates (reversed) the characters since the last match. -/
def normScanAux (gap : List Char) (l : List Char) : List Char :=
  match hm : matchUrl l with
  | some (m, r) => translate_japanese_punct gap.reverse ++ m ++ normScanAux [] r
  | none =>
    match l with
    | [] => translate_japanese_punct gap.reverse
    | c :: rest => normScanAux (c :: gap) rest
termination_by l.length
decreasing_by
  · exact matchUrl_shrinks l m r hm
  · simp

/-- `normalize_japanese_punct`: empty text is returned as-is; text without a
literal `http://` or `https://` substring is translated wholesale; otherwise
URL spans found by `_URL_RE` are passed through untouched and only the gaps
are translated. -/
def normalize_japanese_punct (text : List Char) : List Char :=
  if text = [] then text
  else if !containsSub httpPat text && !containsSub httpsPat text then
    translate_japanese_punct text
  else normScanAux [] text

/-! Facts about the translation tables, used in the normalization proofs. -/

theorem tableLookup_mem {c v : Char} :
    ∀ {tb : List (Char × Char)}, tableLookup c tb = some v → (c, v) ∈ tb := by
  intro tb
  induction tb with
  | nil => intro h; simp [tableLookup] at h
  | cons kv rest ih =>
    intro h
    rcases kv with ⟨k, w⟩
    by_cases hk : k = c
    · subst hk
      simp [tableLookup] at h
      simp [h]
    · simp [tableLookup, hk] at h
      exact List.mem_cons_of_mem _ (ih h)

theorem tableLookup_append (c : Char) (a b : List (Char × Char)) :
    tableLookup c (a ++ b) = (tableLookup c a).orElse (fun _ => tableLookup c b) := by
  induction a with
  | nil => simp [tableLookup]
  | cons kv rest ih =>
    rcases kv with ⟨k, w⟩
    by_cases hk : k = c <;> simp [tableLookup, hk, ih]

theorem punctPairs_facts : ∀ p ∈ punctPairs,
    pyIsDigit p.1 = false ∧ pyIsDigit p.2 = false ∧
    tableLookup p.2 punctPairs = none ∧ tableLookup p.2 digitPairs = none ∧
    p.2 ≠ '.' ∧ p.2 ≠ ':' := by decide

theorem digitPairs_facts : ∀ p ∈ digitPairs,
    pyIsDigit p.1 = true ∧ pyIsDigit p.2 = true ∧
    tableLookup p.2 punctPairs = none ∧ tableLookup p.2 digitPairs = none ∧
    p.2 ≠ '.' ∧ p.2 ≠ ':' := by decide

theorem mapPD_cases (c : Char) :
    (tableLookup c punctPairs = none ∧ tableLookup c digitPairs = none ∧ mapPD c = c) ∨
    (∃ v, mapPD c = v ∧ ((c, v) ∈ punctPairs ∨ (c, v) ∈ digitPairs)) := by
  unfold mapPD
  rcases hp : tableLookup c punctPairs with _ | v
  · rcases hd : tableLookup c digitPairs with _ | v
    · left; simp [hp, hd, Option.getD]
    · right; exact ⟨v, by simp [Option.getD], Or.inr (tableLookup_mem hd)⟩
  · right; exact ⟨v, rfl, Or.inl (tableLookup_mem hp)⟩

theorem mapPD_lookup_none {c : Char} (hp : tableLookup c punctPairs = none)
    (hd : tableLookup c digitPairs = none) : mapPD c = c := by
  unfold mapPD
  simp [hp, hd, Option.getD]

theorem mapPD_digit_pres (c : Char) : pyIsDigit (mapPD c) = pyIsDigit c := by
  rcases mapPD_cases c with ⟨_, _, h⟩ | ⟨v, hv, hmem | hmem⟩
  · rw [h]
  · rw [hv]
    have h1 := (punctPairs_facts (c, v) hmem).1
    have h2 := (punctPairs_facts (c, v) hmem).2.1
    simp at h1 h2
    rw [h1, h2]
  · have h1 := (digitPairs_facts (c, v) hmem).1
    have h2 := (digitPairs_facts (c, v) hmem).2.1
    simp at h1 h2
    rw [hv, h1, h2]

theorem mapPD_fix (c : Char) : mapPD (mapPD c) = mapPD c := by
  rcases mapPD_cases c with ⟨_, _, h⟩ | ⟨v, hv, hmem | hmem⟩
  · rw [h, h]
  · rw [hv]
    have h3 := (punctPairs_facts (c, v) hmem).2.2.1
    have h4 := (punctPairs_facts (c, v) hmem).2.2.2.1
    exact mapPD_lookup_none h3 h4
  · rw [hv]
    have h3 := (digitPairs_facts (c, v) hmem).2.2.1
    have h4 := (digitPairs_facts (c, v) hmem).2.2.2.1
    exact mapPD_lookup_none h3 h4

theorem mapPD_ne_dot (c : Char) : mapPD c ≠ '.' := by
  rcases mapPD_cases c with ⟨hp, _, h⟩ | ⟨v, hv, hmem | hmem⟩
  · rw [h]
    intro hc
    subst hc
    have : tableLookup '.' punctPairs = some '．' := by decide
    rw [this] at hp
    exact Option.noConfusion hp
  · rw [hv]; exact (punctPairs_facts (c, v) hmem).2.2.2.2.1
  · rw [hv]; exact (digitPairs_facts (c, v) hmem).2.2.2.2.1

theorem mapPD_ne_colon (c : Char) : mapPD c ≠ ':' := by
  rcases mapPD_cases c with ⟨hp, _, h⟩ | ⟨v, hv, hmem | hmem⟩
  · rw [h]
    intro hc
    subst hc
    have : tableLookup ':' punctPairs = some '：' := by decide
    rw [this] at hp
    exact Option.noConfusion hp
  · rw [hv]; exact (punctPairs_facts (c, v) hmem).2.2.2.2.2
  · rw [hv]; exact (digitPairs_facts (c, v) hmem).2.2.2.2.2

theorem transChar_eq_mapPD (c : Char) : transChar c = mapPD c := by
  unfold transChar mapPD jpTextTranslation
  rw [tableLookup_append]
  rcases hp : tableLookup c punctPairs with _ | v <;>
    rcases hd : tableLookup c digitPairs with _ | w <;>
    simp [Option.orElse, Option.getD]

theorem transChar_fix (c : Char) : transChar (transChar c) = transChar c := by
  rw [transChar_eq_mapPD, transChar_eq_mapPD, mapPD_fix]

/-! Characters produced by `translate_japanese_punct`. -/

theorem mem_translateLoop {a : Char} :
    ∀ (s : List Char) (p : Option Char), a ∈ translateLoop p s →
      a = '.' ∨ a = '．' ∨ ∃ c, a = mapPD c := by
  intro s
  induction s with
  | nil => intro p h; simp [translateLoop] at h
  | cons c rest ih =>
    intro p h
    simp only [translateLoop, List.mem_cons] at h
    rcases h with h | h
    · by_cases hc : c = '.'
      · rw [if_pos hc] at h
        by_cases hdig : (optIsDigit p && optIsDigit rest.head?) = true
        · rw [if_pos hdig] at h; exact Or.inl h
        · rw [if_neg hdig] at h; exact Or.inr (Or.inl h)
      · rw [if_neg hc] at h
        exact Or.inr (Or.inr ⟨c, h⟩)
    · exact ih (some c) h

theorem translateLoop_ne_colon {a : Char} (s : List Char) (p : Option Char)
    (h : a ∈ translateLoop p s) : a ≠ ':' := by
  rcases mem_translateLoop s p h with h | h | ⟨c, h⟩
  · rw [h]; decide
  · rw [h]; decide
  · rw [h]; exact mapPD_ne_colon c

theorem mem_translate_ne_colon {a : Char} (s : List Char)
    (h : a ∈ translate_japanese_punct s) : a ≠ ':' := by
  unfold translate_japanese_punct at h
  by_cases hd : elemChar '.' s = true
  · rw [if_pos hd] at h
    exact translateLoop_ne_colon s none h
  · rw [if_neg hd] at h
    rcases List.mem_map.mp h with ⟨c, _, hc⟩
    rw [← hc, transChar_eq_mapPD]
    exact mapPD_ne_colon c

/-! Substring tests and the `http(s)://` patterns. -/

theorem isPrefixOfB_mem {p l : List Char} (h : isPrefixOfB p l = true) :
    ∀ c ∈ p, c ∈ l := by
  induction p generalizing l with
  | nil => intro c hc; simp at hc
  | cons a as ih =>
    rcases l with _ | ⟨b, bs⟩
    · simp [isPrefixOfB] at h
    · simp only [isPrefixOfB, Bool.and_eq_true, decide_eq_true_eq] at h
      intro c hc
      rcases List.mem_cons.mp hc with hc | hc
      · subst hc; rw [h.1]; exact List.mem_cons_self _ _
      · exact List.mem_cons_of_mem _ (ih h.2 c hc)

theorem containsSub_mem {p : List Char} :
    ∀ {l : List Char}, containsSub p l = true → ∀ c ∈ p, c ∈ l := by
  intro l
  induction l with
  | nil =>
    intro h c hc
    unfold containsSub at h
    exact isPrefixOfB_mem h c hc
  | cons b bs ih =>
    intro h c hc
    unfold containsSub at h
    rcases Bool.or_eq_true_iff.mp h with h | h
    · exact isPrefixOfB_mem h c hc
    · exact List.mem_cons_of_mem _ (ih h c hc)

theorem no_colon_no_http {l : List Char} (h : ∀ c ∈ l, c ≠ ':') :
    containsSub httpPat l = false ∧ containsSub httpsPat l = false := by
  constructor
  · by_contra hc
    have h1 : containsSub httpPat l = true := by
      revert hc; cases containsSub httpPat l <;> simp
    have h2 : (':' : Char) ∈ l := containsSub_mem h1 ':' (by decide)
    exact (h ':' h2) rfl
  · by_contra hc
    have h1 : containsSub httpsPat l = true := by
      revert hc; cases containsSub httpsPat l <;> simp
    have h2 : (':' : Char) ∈ l := containsSub_mem h1 ':' (by decide)
    exact (h ':' h2) rfl

theorem normalize_no_url (text : List Char)
    (h1 : containsSub httpPat text = false) (h2 : containsSub httpsPat text = false) :
    normalize_japanese_punct text = translate_japanese_punct text := by
  unfold normalize_japanese_punct
  by_cases he : text = []
  · subst he; simp [translate_japanese_punct, elemChar, translateLoop]
  · rw [if_neg he, if_pos (by rw [h1, h2]; rfl)]

/-! Idempotence of the translation pass. -/

theorem elemChar_iff_mem (c : Char) : ∀ (l : List Char), elemChar c l = true ↔ c ∈ l := by
  intro l
  induction l with
  | nil => simp [elemChar]
  | cons b bs ih =>
    simp only [elemChar, Bool.or_eq_true, decide_eq_true_eq, List.mem_cons, ih]
    constructor
    · rintro (h | h)
      · exact Or.inl h.symm
      · exact Or.inr h
    · rintro (h | h)
      · exact Or.inl h.symm
      · exact Or.inr h

theorem mapFix {f : Char → Char} :
    ∀ {l : List Char}, (∀ a ∈ l, f a = a) → l.map f = l := by
  intro l
  induction l with
  | nil => intro _; rfl
  | cons b bs ih =>
    intro h
    simp only [List.map_cons]
    rw [h b (List.mem_cons_self _ _), ih fun a ha => h a (List.mem_cons_of_mem _ ha)]

theorem translateLoop_cons (p : Option Char) (c : Char) (rest : List Char) :
    translateLoop p (c :: rest) =
      (if c = '.' then
        (if optIsDigit p && optIsDigit rest.head? then '.' else '．')
       else mapPD c) :: translateLoop (some c) rest := rfl

theorem translateLoop_head_digit (s : List Char) (p : Option Char) :
    optIsDigit (translateLoop p s).head? = optIsDigit s.head? := by
  rcases s with _ | ⟨c, rest⟩
  · rfl
  · rw [translateLoop_cons]
    simp only [List.head?_cons]
    by_cases hc : c = '.'
    · subst hc
      rw [if_pos rfl]
      by_cases hdig : (optIsDigit p && optIsDigit rest.head?) = true
      · rw [if_pos hdig]
      · rw [if_neg hdig]
        decide
    · rw [if_neg hc]
      exact mapPD_digit_pres c

theorem translateLoop_idem :
    ∀ (s : List Char) (p q : Option Char), optIsDigit q = optIsDigit p →
      translateLoop q (translateLoop p s) = translateLoop p s := by
  intro s
  induction s with
  | nil => intro p q _; rfl
  | cons c rest ih =>
    intro p q hq
    by_cases hc : c = '.'
    · subst hc
      rw [translateLoop_cons, if_pos rfl]
      by_cases hdig : (optIsDigit p && optIsDigit rest.head?) = true
      · rw [if_pos hdig]
        rw [translateLoop_cons, if_pos rfl]
        have hhd : (optIsDigit q && optIsDigit (translateLoop (some '.') rest).head?) = true := by
          rw [hq, translateLoop_head_digit]
          exact hdig
        rw [if_pos hhd, ih (some '.') (some '.') rfl]
      · rw [if_neg hdig]
        rw [translateLoop_cons, if_neg (by decide : ('．' : Char) ≠ '.')]
        have hfw : mapPD '．' = '．' := mapPD_lookup_none (by decide) (by decide)
        rw [hfw, ih (some '.') (some '．') (by decide)]
    · rw [translateLoop_cons, if_neg hc]
      rw [translateLoop_cons, if_neg (mapPD_ne_dot c)]
      rw [mapPD_fix, ih (some c) (some (mapPD c)) (mapPD_digit_pres c)]

theorem translate_fix_of_mem (t : List Char)
    (hmem : ∀ a ∈ t, a = '.' ∨ a = '．' ∨ ∃ c, a = mapPD c)
    (hnodot : elemChar '.' t = false) : t.map transChar = t := by
  apply mapFix
  intro a ha
  rcases hmem a ha with h | h | ⟨c, h⟩
  · exfalso
    rw [h] at ha
    have : elemChar '.' t = true := (elemChar_iff_mem '.' t).mpr ha
    rw [this] at hnodot
    exact Bool.noConfusion hnodot
  · rw [h, transChar_eq_mapPD]
    exact mapPD_lookup_none (by decide) (by decide)
  · rw [h, transChar_eq_mapPD, mapPD_fix]

theorem translate_idem (s : List Char) :
    translate_japanese_punct (translate_japanese_punct s) = translate_japanese_punct s := by
  unfold translate_japanese_punct
  by_cases hd : elemChar '.' s = true
  · rw [if_pos hd]
    by_cases hd2 : elemChar '.' (translateLoop none s) = true
    · rw [if_pos hd2]
      exact translateLoop_idem s none none rfl
    · rw [if_neg hd2]
      exact translate_fix_of_mem _ (fun a ha => mem_translateLoop s none ha)
        (by revert hd2; cases elemChar '.' (translateLoop none s) <;> simp)
  · rw [if_neg hd]
    have hd2 : elemChar '.' (s.map transChar) = false := by
      by_contra hc
      have h1 : elemChar '.' (s.map transChar) = true := by
        revert hc; cases elemChar '.' (s.map transChar) <;> simp
      have h2 := (elemChar_iff_mem '.' _).mp h1
      rcases List.mem_map.mp h2 with ⟨c, _, hc2⟩
      rw [transChar_eq_mapPD] at hc2
      exact mapPD_ne_dot c hc2
    rw [if_neg (by rw [hd2]; simp)]
    apply mapFix
    intro a ha
    rcases List.mem_map.mp ha with ⟨c, _, hc⟩
    rw [← hc]
    exact transChar_fix c

/-- Claim C5: punctuation normalization is idempotent on strings containing
no literal `http://` or `https://` substring: normalizing twice equals
normalizing once. -/
theorem C5_normalize_idempotent_no_url (text : List Char)
    (h1 : containsSub httpPat text = false) (h2 : containsSub httpsPat text = false) :
    normalize_japanese_punct (normalize_japanese_punct text) = normalize_japanese_punct text := by
  rw [normalize_no_url text h1 h2]
  have hnc : ∀ a ∈ translate_japanese_punct text, a ≠ ':' :=
    fun a ha => mem_translate_ne_colon text ha
  obtain ⟨hh1, hh2⟩ := no_colon_no_http hnc
  rw [normalize_no_url _ hh1 hh2]
  exact translate_idem text

/-- Witness for C5 at a concrete input without URLs. -/
theorem C5_normalize_idempotent_no_url_witness :
    normalize_japanese_punct (normalize_japanese_punct "abc, 3.14 yay!".toList) =
      normalize_japanese_punct "abc, 3.14 yay!".toList :=
  C5_normalize_idempotent_no_url "abc, 3.14 yay!".toList (by decide) (by decide)

/-! Claim C1: decimal-point handling. -/

/-- The ASCII digits (the keys of `_JP_DIGIT_MAP`). -/
def digitKeys : List Char := digitPairs.map Prod.fst

theorem digitKeys_facts : ∀ c ∈ digitKeys,
    c ≠ '.' ∧ c ≠ ':' ∧ pyIsDigit c = true := by decide

theorem translateLoop_all_digits :
    ∀ (ds : List Char) (p : Option Char), (∀ c ∈ ds, c ∈ digitKeys) →
      translateLoop p ds = ds.map mapPD := by
  intro ds
  induction ds with
  | nil => intro p _; rfl
  | cons c rest ih =>
    intro p h
    have hc := digitKeys_facts c (h c (List.mem_cons_self _ _))
    rw [translateLoop_cons, if_neg hc.1, List.map_cons,
      ih (some c) fun a ha => h a (List.mem_cons_of_mem _ ha)]

theorem translateLoop_digits_dot_digits :
    ∀ (d1 : List Char) (p : Option Char) (d2 : List Char), d1 ≠ [] → d2 ≠ [] →
      (∀ c ∈ d1, c ∈ digitKeys) → (∀ c ∈ d2, c ∈ digitKeys) →
      translateLoop p (d1 ++ '.' :: d2) = d1.map mapPD ++ '.' :: d2.map mapPD := by
  intro d1
  induction d1 with
  | nil => intro p d2 h1 _ _ _; exact absurd rfl h1
  | cons a d1' ih =>
    intro p d2 _ h2 hd1 hd2
    have ha := digitKeys_facts a (hd1 a (List.mem_cons_self _ _))
    rcases d1' with _ | ⟨b, d1''⟩
    · rcases d2 with _ | ⟨e, d2'⟩
      · exact absurd rfl h2
      · have he := digitKeys_facts e (hd2 e (List.mem_cons_self _ _))
        simp only [List.nil_append, List.cons_append, List.map_cons, List.map_nil]
        rw [translateLoop_cons, if_neg ha.1]
        rw [translateLoop_cons, if_pos rfl,
          if_pos (by simp [optIsDigit, ha.2.2, he.2.2]),
          translateLoop_all_digits (e :: d2') (some '.') hd2]
        simp
    · rw [List.cons_append, translateLoop_cons, if_neg ha.1]
      rw [ih (some a) d2 (by simp) h2
        (fun c hc => hd1 c (List.mem_cons_of_mem _ hc)) hd2]
      simp

theorem no_colon_append {d1 d2 : List Char}
    (h1 : ∀ c ∈ d1, c ∈ digitKeys) (h2 : ∀ c ∈ d2, c ∈ digitKeys) :
    ∀ c ∈ d1 ++ '.' :: d2, c ≠ ':' := by
  intro c hc
  rcases List.mem_append.mp hc with hc | hc
  · exact (digitKeys_facts c (h1 c hc)).2.1
  · rcases List.mem_cons.mp hc with hc | hc
    · subst hc; decide
    · exact (digitKeys_facts c (h2 c hc)).2.1

/-- Claim C1, counterexample: contrary to the claim, normalization does not
return `"3.14"` unchanged (the digits are mapped to full-width while the
period is kept), and on `"3.14 yay!"` it does not map only the `!`. -/
theorem C1_decimal_unchanged_counterexample :
    normalize_japanese_punct "3.14".toList ≠ "3.14".toList ∧
    normalize_japanese_punct "3.14 yay!".toList ≠ "3.14 yay！".toList := by
  constructor <;> decide

/-- Claim C1, amended: on a string of digits with a single interior period
flanked by digits, normalization keeps the period as-is while mapping each
digit through the digit table to its full-width form; on `"3.14 yay!"` the
digits and the `!` are mapped while the period, space and letters are
unchanged. -/
theorem C1_decimal_point_amended :
    (∀ d1 d2 : List Char, d1 ≠ [] → d2 ≠ [] →
      (∀ c ∈ d1, c ∈ digitKeys) → (∀ c ∈ d2, c ∈ digitKeys) →
      normalize_japanese_punct (d1 ++ '.' :: d2) =
        d1.map mapPD ++ '.' :: d2.map mapPD) ∧
    normalize_japanese_punct "3.14 yay!".toList = "３.１４ yay！".toList := by
  constructor
  · intro d1 d2 h1 h2 hd1 hd2
    obtain ⟨hh1, hh2⟩ := no_colon_no_http (no_colon_append hd1 hd2)
    rw [normalize_no_url _ hh1 hh2]
    unfold translate_japanese_punct
    rw [if_pos (by
      apply (elemChar_iff_mem '.' _).mpr
      exact List.mem_append.mpr (Or.inr (List.mem_cons_self _ _)))]
    exact translateLoop_digits_dot_digits d1 none d2 h1 h2 hd1 hd2
  · decide

/-- Witness for the amended C1 at `"3.14"`. -/
theorem C1_decimal_point_amended_witness :
    normalize_japanese_punct (['3'] ++ '.' :: ['1', '4']) =
      ['3'].map mapPD ++ '.' :: ['1', '4'].map mapPD :=
  C1_decimal_point_amended.1 ['3'] ['1', '4'] (by decide) (by decide)
    (by decide) (by decide)

/-! HTML text helpers (`html_to_text`, `html.unescape`) and the separator
pass. A "paragraph" is one `List Char`. -/

/-- A paragraph: one entry of a chapter's `paragraphs` list. -/
abbrev Para := List Char

theorem dropWhile_len_le {α : Type} (p : α → Bool) (l : List α) :
    (l.dropWhile p).length ≤ l.length := by
  induction l with
  | nil => simp
  | cons a rest ih =>
    rw [List.dropWhile_cons]
    by_cases hp : p a = true
    · rw [if_pos hp]; exact Nat.le_succ_of_le ih
    · rw [if_neg hp]

/-- Sequential leftmost replacement of a fixed nonempty pattern, modelling
one `str.replace(pat, rep)` call. -/
def replaceSub (pat rep : List Char) (l : List Char) : List Char :=
  match l with
  | [] => []
  | c :: rest =>
    if pat ≠ [] ∧ isPrefixOfB pat (c :: rest) = true then
      -- dropping the matched pattern: `l.drop pat.length` with `l = c :: rest`
      rep ++ replaceSub pat rep (rest.drop (pat.length - 1))
    else c :: replaceSub pat rep rest
termination_by l.length
decreasing_by
  all_goals try simp only [List.length_cons, List.length_drop]
  all_goals omega

/-- Scan to the first `>`: returns the span before it and the remainder
after it, when one exists. -/
def splitAtGt : List Char → Option (List Char × List Char)
  | [] => none
  | c :: rest =>
    if c = '>' then some ([], rest)
    else (splitAtGt rest).map fun p => (c :: p.1, p.2)

theorem splitAtGt_len {l span after : List Char}
    (h : splitAtGt l = some (span, after)) : after.length < l.length := by
  induction l generalizing span after with
  | nil => simp [splitAtGt] at h
  | cons c rest ih =>
    unfold splitAtGt at h
    by_cases hc : c = '>'
    · rw [if_pos hc] at h
      simp only [Option.some.injEq, Prod.mk.injEq] at h
      rw [← h.2]
      simp
    · rw [if_neg hc] at h
      rcases hs : splitAtGt rest with _ | ⟨sp, af⟩ <;> rw [hs] at h
      · simp at h
      · have hpair : (c :: sp, af) = (span, after) := Option.some.inj h
        have h2 : af = after := congrArg Prod.snd hpair
        have := ih hs
        rw [← h2]
        simp only [List.length_cons]
        omega

/-- Removal of `<[^>]+>` spans, modelling `re.sub(r"<[^>]+>", "", s)`:
from each `<`, the span up to the first following `>` is dropped when it is
nonempty; otherwise the `<` is literal. -/
def stripTags (l : List Char) : List Char :=
  match l with
  | [] => []
  | c :: rest =>
    if c = '<' then
      match hsp : splitAtGt rest with
      | some (span, after) =>
        if span = [] then c :: stripTags rest else stripTags after
      | none => c :: stripTags rest
    else c :: stripTags rest
termination_by l.length
decreasing_by
  all_goals first
    | (simp only [List.length_cons]; omega)
    | (have hq := splitAtGt_len hsp; simp only [List.length_cons]; omega)

/-- `html_to_text`: replace the three `<br>` spellings with newlines, then
strip the remaining tags. -/
def html_to_text (s : List Char) : List Char :=
  stripTags (replaceSub "<br>".toList ['\n']
    (replaceSub "<br/>".toList ['\n']
      (replaceSub "<br />".toList ['\n'] s)))

/-- `html.unescape` restricted to the entity repertoire this program feeds
it: paragraphs hold text the chapter extractor escaped with `html.escape`
(which emits only `&amp; &lt; &gt; &quot; &#x27;`) plus the builder's
`&#160;`/`&nbsp;` blanks; other entities cannot occur. -/
def pyUnescape (l : List Char) : List Char :=
  match l with
  | [] => []
  | c :: rest =>
    if c = '&' then
      if isPrefixOfB "amp;".toList rest then '&' :: pyUnescape (rest.drop 4)
      else if isPrefixOfB "lt;".toList rest then '<' :: pyUnescape (rest.drop 3)
      else if isPrefixOfB "gt;".toList rest then '>' :: pyUnescape (rest.drop 3)
      else if isPrefixOfB "quot;".toList rest then '"' :: pyUnescape (rest.drop 5)
      else if isPrefixOfB "#x27;".toList rest then '\'' :: pyUnescape (rest.drop 5)
      else if isPrefixOfB "#39;".toList rest then '\'' :: pyUnescape (rest.drop 4)
      else if isPrefixOfB "#160;".toList rest then Char.ofNat 0xa0 :: pyUnescape (rest.drop 5)
      else if isPrefixOfB "nbsp;".toList rest then Char.ofNat 0xa0 :: pyUnescape (rest.drop 5)
      else c :: pyUnescape rest
    else c :: pyUnescape rest
termination_by l.length
decreasing_by
  all_goals simp only [List.length_cons, List.length_drop]
  all_goals omega

/-- `MARK_PREFACE`. -/
def MARK_PREFACE : Para := "__PREFACE__".toList

/-- `MARK_PREFACE_END`. -/
def MARK_PREFACE_END : Para := "__PREFACE_END__".toList

/-- `MARK_AFTERWORD`. -/
def MARK_AFTERWORD : Para := "__AFTERWORD__".toList

/-- `MARK_AFTERWORD_END`. -/
def MARK_AFTERWORD_END : Para := "__AFTERWORD_END__".toList

/-- `MARK_SEPARATOR`. -/
def MARK_SEPARATOR : Para := "__SEPARATOR__".toList

/-- The `markers` set used by the separator pass. -/
def markerSet : List Para :=
  [MARK_PREFACE, MARK_PREFACE_END, MARK_AFTERWORD, MARK_AFTERWORD_END, MARK_SEPARATOR]

/-- `_SEPARATOR_CHARS`: the line/dash glyph set. -/
def sepLineChars : List Char := "-_－＿—–―ｰー─━".toList

/-- `_SEPARATOR_SYMBOLS`: the symbol glyph set. -/
def sepSymbolChars : List Char := "*＊".toList

/-- `is_separator_line`: after dropping whitespace, all characters from the
line set (length at least 4) or all from the symbol set (any length). -/
def is_separator_line (text : List Char) : Bool :=
  let compact := text.filter fun c => !pyIsSpace c
  if compact = [] then false
  else if compact.all fun c => elemChar c sepLineChars then decide (4 ≤ compact.length)
  else if compact.all fun c => elemChar c sepSymbolChars then true
  else false

/-- `is_blank_para` (the inner helper of `normalize_separator_spacing`):
the empty string is blank, markers and image-bearing paragraphs are not,
otherwise blank means the unescaped tag-stripped text is all whitespace. -/
def is_blank_para (para : Para) : Bool :=
  if para = [] then true
  else if para ∈ markerSet then false
  else if containsSub "<img".toList para then false
  else (pyUnescape (html_to_text para)).all pyIsSpace

/-- The `while i < total` loop of `normalize_separator_spacing`, with the
output list `out` carried reversed (append/pop at the Python list's tail are
cons/uncons at the head). -/
def normSepAux (acc : List Para) (l : List Para) : List Para :=
  match l with
  | [] => acc.reverse
  | p :: rest =>
    if p = MARK_SEPARATOR then
      let d := acc.dropWhile is_blank_para
      let d2 := if d = [] then d else [] :: d
      let rest1 := rest.dropWhile is_blank_para
      let acc4 :=
        if rest1 = [] then MARK_SEPARATOR :: d2 else [] :: MARK_SEPARATOR :: d2
      normSepAux acc4 rest1
    else normSepAux (p :: acc) rest
termination_by l.length
decreasing_by
  · have := dropWhile_len_le is_blank_para rest
    simp only [List.length_cons]
    omega
  · simp

/-- `normalize_separator_spacing`. -/
def normalize_separator_spacing (paragraphs : List Para) : List Para :=
  normSepAux [] paragraphs

/-- The per-paragraph replacement of the `apply_separator_handling` loop:
markers and empty paragraphs pass through, separator-looking text becomes
the separator marker. -/
def separator_transform (para : Para) : Para :=
  if para ∈ markerSet ∨ para = [] then para
  else if is_separator_line (pyUnescape (html_to_text para)) then MARK_SEPARATOR
  else para

/-- `apply_separator_handling`: replace separator-looking paragraphs with
the separator marker, then collapse surrounding blanks. -/
def apply_separator_handling (paragraphs : List Para) : List Para :=
  normalize_separator_spacing (paragraphs.map separator_transform)

/-! Characterization of `normalize_separator_spacing` used for claims C4 and
C9: the output is rendered segment-by-segment between separator markers. -/

theorem blank_sep_false : is_blank_para MARK_SEPARATOR = false := by decide

theorem blank_nil_true : is_blank_para ([] : Para) = true := by decide

theorem dropWhile_head_not {α : Type} {p : α → Bool} :
    ∀ {l : List α} {x : α} {xs : List α}, l.dropWhile p = x :: xs → p x = false := by
  intro l
  induction l with
  | nil => intro x xs h; simp at h
  | cons a rest ih =>
    intro x xs h
    rw [List.dropWhile_cons] at h
    by_cases hp : p a = true
    · rw [if_pos hp] at h
      exact ih h
    · rw [if_neg hp] at h
      obtain ⟨h1, -⟩ := List.cons.inj h
      rw [← h1]
      revert hp
      cases p a <;> simp

theorem dropWhile_append {α : Type} [DecidableEq α] (p : α → Bool) (a b : List α) :
    (a ++ b).dropWhile p =
      if a.dropWhile p = [] then b.dropWhile p else a.dropWhile p ++ b := by
  induction a with
  | nil => simp
  | cons x a' ih =>
    rw [List.cons_append, List.dropWhile_cons, List.dropWhile_cons]
    by_cases hp : p x = true
    · rw [if_pos hp, if_pos hp, ih]
    · rw [if_neg hp, if_neg hp, if_neg (by simp), List.cons_append]

/-- Right trim of trailing blank paragraphs. -/
def rtrimB (l : List Para) : List Para := (l.reverse.dropWhile is_blank_para).reverse

/-- Split a paragraph list at the first separator marker. -/
def splitFirst : List Para → Option (List Para × List Para)
  | [] => none
  | p :: rest =>
    if p = MARK_SEPARATOR then some ([], rest)
    else (splitFirst rest).map fun q => (p :: q.1, q.2)

theorem splitFirst_none : ∀ {l : List Para}, splitFirst l = none → MARK_SEPARATOR ∉ l := by
  intro l
  induction l with
  | nil => intro _; simp
  | cons p rest ih =>
    intro h
    unfold splitFirst at h
    by_cases hp : p = MARK_SEPARATOR
    · rw [if_pos hp] at h; exact Option.noConfusion h
    · rw [if_neg hp] at h
      rcases hs : splitFirst rest with _ | q <;> rw [hs] at h
      · intro hmem
        rcases List.mem_cons.mp hmem with hmem | hmem
        · exact hp hmem.symm
        · exact ih hs hmem
      · exact Option.noConfusion h

theorem splitFirst_some :
    ∀ {l t r : _}, splitFirst l = some (t, r) →
      l = t ++ MARK_SEPARATOR :: r ∧ MARK_SEPARATOR ∉ t := by
  intro l
  induction l with
  | nil => intro t r h; simp [splitFirst] at h
  | cons p rest ih =>
    intro t r h
    unfold splitFirst at h
    by_cases hp : p = MARK_SEPARATOR
    · rw [if_pos hp] at h
      obtain ⟨h1, h2⟩ := Prod.mk.inj (Option.some.inj h)
      subst hp; rw [← h1, ← h2]
      exact ⟨rfl, by simp⟩
    · rw [if_neg hp] at h
      rcases hs : splitFirst rest with _ | ⟨t', r'⟩ <;> rw [hs] at h
      · exact Option.noConfusion h
      · obtain ⟨h1, h2⟩ := Prod.mk.inj (Option.some.inj h)
        obtain ⟨hr, hni⟩ := ih hs
        rw [← h1, ← h2]
        constructor
        · rw [List.cons_append, ← hr]
        · intro hmem
          rcases List.mem_cons.mp hmem with hmem | hmem
          · exact hp hmem.symm
          · exact hni hmem

theorem splitFirst_some_len {l t r : List Para} (h : splitFirst l = some (t, r)) :
    r.length < l.length := by
  obtain ⟨he, -⟩ := splitFirst_some h
  rw [he]
  simp only [List.length_append, List.length_cons]
  omega

/-- Rendered form of the output: `rend false u` renders a remainder `u`
whose head is not blank (content up to the next separator, trailing blanks
trimmed, then one blank, the separator, and the rendered tail); `rend true r`
renders a raw remainder just after an emitted separator (leading blanks are
skipped; one blank is emitted only when content remains). -/
def rend (flag : Bool) (r : List Para) : List Para :=
  if flag then
    if r.dropWhile is_blank_para = [] then []
    else [] :: rend false (r.dropWhile is_blank_para)
  else
    match hs : splitFirst r with
    | none => r
    | some (t, r') =>
      (if t = [] then [] else rtrimB t ++ [[]]) ++ MARK_SEPARATOR :: rend true r'
termination_by 2 * r.length + (if flag then 1 else 0)
decreasing_by
  · have h := dropWhile_len_le is_blank_para r
    split <;> simp_all <;> omega
  · have h := splitFirst_some_len hs
    split <;> simp_all <;> omega

/-- Rendered form of the whole output of `normalize_separator_spacing`. -/
def renderTop (l : List Para) : List Para :=
  match splitFirst l with
  | none => l
  | some (t, r) =>
    (if rtrimB t = [] then [] else rtrimB t ++ [[]]) ++ MARK_SEPARATOR :: rend true r

theorem rend_true_nil {r : List Para} (h : r.dropWhile is_blank_para = []) :
    rend true r = [] := by
  conv_lhs => rw [rend.eq_def]
  rw [if_pos rfl, if_pos h]

theorem rend_true_cons {r : List Para} (h : r.dropWhile is_blank_para ≠ []) :
    rend true r = [] :: rend false (r.dropWhile is_blank_para) := by
  conv_lhs => rw [rend.eq_def]
  rw [if_pos rfl, if_neg h]

theorem rend_false_none {u : List Para} (hs : splitFirst u = none) :
    rend false u = u := by
  conv_lhs => rw [rend.eq_def]
  rw [if_neg (by simp)]
  split
  · rfl
  · rename_i t r' hsome
    rw [hs] at hsome
    exact Option.noConfusion hsome

theorem rend_false_some {u t r' : List Para} (hs : splitFirst u = some (t, r')) :
    rend false u =
      (if t = [] then [] else rtrimB t ++ [[]]) ++ MARK_SEPARATOR :: rend true r' := by
  conv_lhs => rw [rend.eq_def]
  rw [if_neg (by simp)]
  split
  · rename_i hnone
    rw [hs] at hnone
    exact Option.noConfusion hnone
  · rename_i t0 r0 hsome
    rw [hs] at hsome
    obtain ⟨h1, h2⟩ := Prod.mk.inj (Option.some.inj hsome)
    rw [h1, h2]

theorem normSepAux_nil (acc : List Para) : normSepAux acc [] = acc.reverse := by
  conv_lhs => rw [normSepAux.eq_def]

theorem normSepAux_cons_ne (acc : List Para) {p : Para} (rest : List Para)
    (h : p ≠ MARK_SEPARATOR) :
    normSepAux acc (p :: rest) = normSepAux (p :: acc) rest := by
  conv_lhs => rw [normSepAux.eq_def]
  simp only [if_neg h]

theorem normSepAux_cons_sep (acc rest : List Para) :
    normSepAux acc (MARK_SEPARATOR :: rest) =
      normSepAux
        (if rest.dropWhile is_blank_para = [] then
          MARK_SEPARATOR ::
            (if acc.dropWhile is_blank_para = [] then acc.dropWhile is_blank_para
             else [] :: acc.dropWhile is_blank_para)
         else
          [] :: MARK_SEPARATOR ::
            (if acc.dropWhile is_blank_para = [] then acc.dropWhile is_blank_para
             else [] :: acc.dropWhile is_blank_para))
        (rest.dropWhile is_blank_para) := by
  conv_lhs => rw [normSepAux.eq_def]
  simp only [reduceIte]

theorem dropWhile_ne_nil_of_mem {α : Type} {p : α → Bool} {y : α} :
    ∀ {l : List α}, y ∈ l → p y = false → l.dropWhile p ≠ [] := by
  intro l
  induction l with
  | nil => intro hy; simp at hy
  | cons a rest ih =>
    intro hy hpy
    rw [List.dropWhile_cons]
    by_cases hp : p a = true
    · rw [if_pos hp]
      rcases List.mem_cons.mp hy with hy | hy
      · subst hy; rw [hpy] at hp; exact Bool.noConfusion hp
      · exact ih hy hpy
    · rw [if_neg hp]
      simp

theorem normSepAux_skip :
    ∀ (s : List Para), MARK_SEPARATOR ∉ s → ∀ (acc l : List Para),
      normSepAux acc (s ++ l) = normSepAux (s.reverse ++ acc) l := by
  intro s
  induction s with
  | nil => intro _ acc l; simp
  | cons p s' ih =>
    intro h acc l
    rw [List.cons_append,
      normSepAux_cons_ne acc _ (fun he => h (by rw [he]; exact List.mem_cons_self _ _)),
      ih (fun hm => h (List.mem_cons_of_mem _ hm)) (p :: acc) l]
    simp [List.append_assoc]

theorem blank_sep_false' : is_blank_para MARK_SEPARATOR ≠ true := by
  rw [blank_sep_false]; simp

theorem dropWhile_mark_cons (X : List Para) :
    ([] :: MARK_SEPARATOR :: X).dropWhile is_blank_para = MARK_SEPARATOR :: X := by
  rw [List.dropWhile_cons, if_pos blank_nil_true, List.dropWhile_cons,
    if_neg blank_sep_false']

/-- Core induction: the loop state just after an emitted separator and its
mandatory following blank renders the remaining input through `rend`. -/
theorem normSepAux_T :
    ∀ (n : ℕ) (r : List Para), r.length ≤ n →
      ∀ (x : Para) (r0 : List Para), r = x :: r0 → is_blank_para x = false →
      ∀ (X : List Para),
      normSepAux ([] :: MARK_SEPARATOR :: X) r =
        X.reverse ++ MARK_SEPARATOR :: [] :: rend false r := by
  intro n
  induction n with
  | zero =>
    intro r hlen x r0 hr _ _
    subst hr; simp at hlen
  | succ n ih =>
    intro r hlen x r0 hr hx X
    rcases hs : splitFirst r with _ | ⟨t, r'⟩
    · have hni := splitFirst_none hs
      rw [rend_false_none hs]
      calc normSepAux ([] :: MARK_SEPARATOR :: X) r
          = normSepAux ([] :: MARK_SEPARATOR :: X) (r ++ []) := by simp
        _ = normSepAux (r.reverse ++ ([] :: MARK_SEPARATOR :: X)) [] :=
            normSepAux_skip r hni _ []
        _ = (r.reverse ++ ([] :: MARK_SEPARATOR :: X)).reverse := normSepAux_nil _
        _ = X.reverse ++ MARK_SEPARATOR :: [] :: r := by simp
    · obtain ⟨hre, hnot⟩ := splitFirst_some hs
      rw [rend_false_some hs]
      rcases t with _ | ⟨a, t'⟩
      · simp only [List.nil_append] at hre
        rw [hre, normSepAux_cons_sep, dropWhile_mark_cons]
        by_cases hrest : r'.dropWhile is_blank_para = []
        · rw [if_pos hrest, if_neg (by simp), hrest, normSepAux_nil,
            rend_true_nil hrest]
          simp
        · rw [if_neg hrest, if_neg (by simp)]
          rcases hu : r'.dropWhile is_blank_para with _ | ⟨y, ys⟩
          · exact absurd hu hrest
          · have hy : is_blank_para y = false := dropWhile_head_not hu
            have hlen2 : (r'.dropWhile is_blank_para).length ≤ n := by
              have h1 := dropWhile_len_le is_blank_para r'
              rw [hre] at hlen
              simp only [List.length_cons] at hlen
              omega
            rw [hu] at hlen2
            rw [ih (y :: ys) hlen2 y ys rfl hy ([] :: MARK_SEPARATOR :: X),
              rend_true_cons hrest, hu]
            simp
      · have hax : x = a := by
          rw [hr, List.cons_append] at hre
          exact (List.cons.inj hre).1
        rw [hre, normSepAux_skip (a :: t') hnot]
        rw [normSepAux_cons_sep]
        have hne : ((a :: t').reverse).dropWhile is_blank_para ≠ [] := by
          apply dropWhile_ne_nil_of_mem (y := a)
          · rw [List.mem_reverse]; exact List.mem_cons_self _ _
          · rw [← hax]; exact hx
        have hdw : ((a :: t').reverse ++ ([] :: MARK_SEPARATOR :: X)).dropWhile is_blank_para
            = (rtrimB (a :: t')).reverse ++ ([] :: MARK_SEPARATOR :: X) := by
          rw [dropWhile_append, if_neg hne]
          unfold rtrimB
          rw [List.reverse_reverse]
        rw [hdw]
        have hrtne : (rtrimB (a :: t')).reverse ≠ [] := by
          unfold rtrimB
          rw [List.reverse_reverse]
          exact hne
        by_cases hrest : r'.dropWhile is_blank_para = []
        · rw [if_pos hrest, if_neg (by simp [hrtne]), hrest, normSepAux_nil,
            rend_true_nil hrest, if_neg (by simp)]
          simp
        · rw [if_neg hrest, if_neg (by simp [hrtne])]
          rcases hu : r'.dropWhile is_blank_para with _ | ⟨y, ys⟩
          · exact absurd hu hrest
          · have hy : is_blank_para y = false := dropWhile_head_not hu
            have hlen2 : (r'.dropWhile is_blank_para).length ≤ n := by
              have h1 := dropWhile_len_le is_blank_para r'
              rw [hre] at hlen
              simp only [List.length_append, List.length_cons] at hlen
              omega
            rw [hu] at hlen2
            rw [ih (y :: ys) hlen2 y ys rfl hy
              ([] :: ((rtrimB (a :: t')).reverse ++ ([] :: MARK_SEPARATOR :: X))),
              rend_true_cons hrest, hu, if_neg (by simp)]
            simp

theorem renderTop_none {l : List Para} (hs : splitFirst l = none) :
    renderTop l = l := by
  unfold renderTop
  rw [hs]

theorem renderTop_some {l t r : List Para} (hs : splitFirst l = some (t, r)) :
    renderTop l =
      (if rtrimB t = [] then [] else rtrimB t ++ [[]]) ++
        MARK_SEPARATOR :: rend true r := by
  unfold renderTop
  rw [hs]

/-- `normalize_separator_spacing` computes exactly the rendered form. -/
theorem normalize_eq_renderTop (l : List Para) :
    normalize_separator_spacing l = renderTop l := by
  unfold normalize_separator_spacing
  rcases hs : splitFirst l with _ | ⟨t, r⟩
  · rw [renderTop_none hs]
    have hni := splitFirst_none hs
    calc normSepAux [] l = normSepAux [] (l ++ []) := by simp
      _ = normSepAux (l.reverse ++ []) [] := normSepAux_skip l hni [] []
      _ = (l.reverse ++ []).reverse := normSepAux_nil _
      _ = l := by simp
  · obtain ⟨hre, hnot⟩ := splitFirst_some hs
    rw [renderTop_some hs, hre,
      normSepAux_skip t hnot [] (MARK_SEPARATOR :: r), normSepAux_cons_sep]
    have hdw : (t.reverse ++ []).dropWhile is_blank_para = (rtrimB t).reverse := by
      rw [List.append_nil]
      unfold rtrimB
      rw [List.reverse_reverse]
    rw [hdw]
    by_cases hrt : rtrimB t = []
    · rw [hrt]
      simp only [List.reverse_nil, reduceIte]
      by_cases hr0 : r.dropWhile is_blank_para = []
      · rw [if_pos hr0, hr0, normSepAux_nil, rend_true_nil hr0]
        simp
      · rw [if_neg hr0]
        rcases hu : r.dropWhile is_blank_para with _ | ⟨y, ys⟩
        · exact absurd hu hr0
        · have hy : is_blank_para y = false := dropWhile_head_not hu
          rw [normSepAux_T (y :: ys).length (y :: ys) le_rfl y ys rfl hy [],
            rend_true_cons hr0, hu]
          simp
    · have hrev : (rtrimB t).reverse ≠ [] := by simpa using hrt
      rw [if_neg hrev, if_neg hrt]
      by_cases hr0 : r.dropWhile is_blank_para = []
      · rw [if_pos hr0, hr0, normSepAux_nil, rend_true_nil hr0]
        simp
      · rw [if_neg hr0]
        rcases hu : r.dropWhile is_blank_para with _ | ⟨y, ys⟩
        · exact absurd hu hr0
        · have hy : is_blank_para y = false := dropWhile_head_not hu
          rw [normSepAux_T (y :: ys).length (y :: ys) le_rfl y ys rfl hy
            ([] :: (rtrimB t).reverse), rend_true_cons hr0, hu]
          simp

/-! The spacing invariant: a window scan over the output list. -/

/-- Check on the two output elements preceding a separator: nothing (the
separator starts the output), or exactly one blank preceded by a non-blank. -/
def beforeOkB (p1 p2 : Option Para) : Bool :=
  match p1 with
  | none => true
  | some q =>
    (q = ([] : Para)) && (match p2 with
      | none => false
      | some w => !is_blank_para w)

/-- Check on the output elements following a separator: nothing (the
separator ends the output), or exactly one blank followed by a non-blank. -/
def afterOkB : List Para → Bool
  | [] => true
  | q :: rest =>
    (q = ([] : Para)) && (match rest with
      | [] => false
      | w :: _ => !is_blank_para w)

/-- Window scan: `p1`/`p2` are the previous and second-previous elements;
at each separator the surrounding window must be exactly one blank on each
side, except at the ends of the list. -/
def sepScan (p1 p2 : Option Para) : List Para → Bool
  | [] => true
  | x :: rest =>
    (if x = MARK_SEPARATOR then beforeOkB p1 p2 && afterOkB rest else true) &&
    sepScan (some x) p1 rest

/-- Every separator in the list is surrounded by exactly one blank paragraph
on each side, except where the list begins or ends at the separator itself. -/
def separator_spacing_ok (l : List Para) : Bool := sepScan none none l

theorem sepScan_cons (p1 p2 : Option Para) (x : Para) (rest : List Para) :
    sepScan p1 p2 (x :: rest) =
      ((if x = MARK_SEPARATOR then beforeOkB p1 p2 && afterOkB rest else true) &&
        sepScan (some x) p1 rest) := rfl

theorem sepScan_no_sep :
    ∀ {xs : List Para}, MARK_SEPARATOR ∉ xs → ∀ (p1 p2 : Option Para),
      sepScan p1 p2 xs = true := by
  intro xs
  induction xs with
  | nil => intro _ p1 p2; rfl
  | cons x rest ih =>
    intro h p1 p2
    rw [sepScan_cons,
      if_neg (fun he => h (by rw [he]; exact List.mem_cons_self _ _)),
      ih (fun hm => h (List.mem_cons_of_mem _ hm)) (some x) p1]
    simp

theorem getLast?_cons_some (z : Para) (c : List Para) :
    ∃ w, (z :: c).getLast? = some w := by
  induction c generalizing z with
  | nil => exact ⟨z, rfl⟩
  | cons y c' ih =>
    rw [List.getLast?_cons_cons]
    exact ih y

theorem sepScan_seg :
    ∀ (c : List Para) (p1 p2 : Option Para) (a : Para) (ys : List Para),
      MARK_SEPARATOR ∉ c → a ≠ MARK_SEPARATOR →
      sepScan p1 p2 (c ++ a :: ys) =
        sepScan (some a) (c.getLast?.elim p1 some) ys := by
  intro c
  induction c with
  | nil =>
    intro p1 p2 a ys _ ha
    rw [List.nil_append, sepScan_cons, if_neg ha]
    simp
  | cons x c' ih =>
    intro p1 p2 a ys h ha
    rw [List.cons_append, sepScan_cons,
      if_neg (fun he => h (by rw [he]; exact List.mem_cons_self _ _)),
      ih (some x) p1 a ys (fun hm => h (List.mem_cons_of_mem _ hm)) ha]
    rcases c' with _ | ⟨z, c''⟩
    · simp
    · rw [List.getLast?_cons_cons]
      obtain ⟨w, hw⟩ := getLast?_cons_some z c''
      rw [hw]
      simp [Option.elim]

/-! Structure facts about `rtrimB` and `rend`. -/

theorem exists_dropWhile_suffix {α : Type} (p : α → Bool) :
    ∀ (l : List α), ∃ w, l = w ++ l.dropWhile p := by
  intro l
  induction l with
  | nil => exact ⟨[], rfl⟩
  | cons x rest ih =>
    rw [List.dropWhile_cons]
    by_cases hp : p x = true
    · rw [if_pos hp]
      obtain ⟨w, hw⟩ := ih
      exact ⟨x :: w, by rw [List.cons_append, ← hw]⟩
    · rw [if_neg hp]
      exact ⟨[], rfl⟩

theorem rtrimB_decomp (l : List Para) : ∃ bs, l = rtrimB l ++ bs := by
  obtain ⟨w, hw⟩ := exists_dropWhile_suffix is_blank_para l.reverse
  refine ⟨w.reverse, ?_⟩
  unfold rtrimB
  calc l = l.reverse.reverse := by rw [List.reverse_reverse]
    _ = (w ++ l.reverse.dropWhile is_blank_para).reverse := by rw [← hw]
    _ = (l.reverse.dropWhile is_blank_para).reverse ++ w.reverse := by
        rw [List.reverse_append]

theorem mem_rtrimB {x : Para} {l : List Para} (h : x ∈ rtrimB l) : x ∈ l := by
  obtain ⟨bs, hbs⟩ := rtrimB_decomp l
  rw [hbs]
  exact List.mem_append.mpr (Or.inl h)

theorem rtrimB_ne_nil {y : Para} {ys : List Para} (hy : is_blank_para y = false) :
    rtrimB (y :: ys) ≠ [] := by
  unfold rtrimB
  intro hc
  have h1 : (y :: ys).reverse.dropWhile is_blank_para = [] := by
    have := congrArg List.reverse hc
    rw [List.reverse_reverse] at this
    simpa using this
  have h2 : y ∈ (y :: ys).reverse := by
    rw [List.mem_reverse]; exact List.mem_cons_self _ _
  exact dropWhile_ne_nil_of_mem h2 hy h1

theorem rtrimB_head {l : List Para} {z : Para} {zs : List Para}
    (h : rtrimB l = z :: zs) : ∃ l', l = z :: l' := by
  obtain ⟨bs, hbs⟩ := rtrimB_decomp l
  rw [h, List.cons_append] at hbs
  exact ⟨zs ++ bs, hbs⟩

theorem rtrimB_getLast {l : List Para} {w : Para}
    (h : (rtrimB l).getLast? = some w) : is_blank_para w = false := by
  unfold rtrimB at h
  rw [List.getLast?_reverse] at h
  rcases hd : l.reverse.dropWhile is_blank_para with _ | ⟨z, zs⟩
  · rw [hd] at h; simp at h
  · rw [hd] at h
    simp only [List.head?_cons, Option.some.injEq] at h
    rw [← h]
    exact dropWhile_head_not hd

theorem rend_false_head {y : Para} {ys : List Para} (hy : is_blank_para y = false) :
    ∃ z zs, rend false (y :: ys) = z :: zs ∧ is_blank_para z = false := by
  rcases hs : splitFirst (y :: ys) with _ | ⟨t, r'⟩
  · rw [rend_false_none hs]
    exact ⟨y, ys, rfl, hy⟩
  · obtain ⟨hre, -⟩ := splitFirst_some hs
    rcases t with _ | ⟨a, t'⟩
    · rw [rend_false_some hs, if_pos rfl, List.nil_append]
      exact ⟨MARK_SEPARATOR, rend true r', rfl, blank_sep_false⟩
    · have hay : a = y := by
        rw [List.cons_append] at hre
        exact ((List.cons.inj hre).1).symm
      rw [rend_false_some hs, if_neg (by simp)]
      have hab : is_blank_para a = false := by rw [hay]; exact hy
      have hnrt := @rtrimB_ne_nil a t' hab
      rcases hrt : rtrimB (a :: t') with _ | ⟨z, zs⟩
      · exact absurd hrt hnrt
      · obtain ⟨l', hl'⟩ := rtrimB_head hrt
        have hz : z = a := ((List.cons.inj hl').1).symm
        refine ⟨z, zs ++ [[]] ++ MARK_SEPARATOR :: rend true r', ?_, ?_⟩
        · simp
        · rw [hz, hay]; exact hy

theorem afterOk_rend_true (r' : List Para) : afterOkB (rend true r') = true := by
  by_cases hd : r'.dropWhile is_blank_para = []
  · rw [rend_true_nil hd]; rfl
  · rcases hu : r'.dropWhile is_blank_para with _ | ⟨y, ys⟩
    · exact absurd hu hd
    · rw [rend_true_cons hd, hu]
      obtain ⟨z, zs, hz, hbz⟩ := rend_false_head (dropWhile_head_not hu)
      rw [hz]
      simp [afterOkB, hbz]

/-- The rendered output always satisfies the window scan. -/
theorem rend_scan :
    ∀ n : ℕ,
      (∀ (u : List Para) (p1 p2 : Option Para), u.length ≤ n →
        (∀ y ys, u = y :: ys → is_blank_para y = false) → beforeOkB p1 p2 = true →
        sepScan p1 p2 (rend false u) = true) ∧
      (∀ (r' : List Para) (p2 : Option Para), r'.length ≤ n →
        sepScan (some MARK_SEPARATOR) p2 (rend true r') = true) := by
  intro n
  induction n with
  | zero =>
    constructor
    · intro u p1 p2 hlen _ _
      rcases u with _ | ⟨y, ys⟩
      · rw [rend_false_none (u := []) rfl]; rfl
      · simp at hlen
    · intro r' p2 hlen
      rcases r' with _ | ⟨y, ys⟩
      · rw [rend_true_nil (r := []) rfl]; rfl
      · simp at hlen
  | succ n ih =>
    have Lhead : ∀ (u : List Para) (p1 p2 : Option Para), u.length ≤ n + 1 →
        (∀ y ys, u = y :: ys → is_blank_para y = false) → beforeOkB p1 p2 = true →
        sepScan p1 p2 (rend false u) = true := by
      intro u p1 p2 hlen hhead hb
      rcases hs : splitFirst u with _ | ⟨t, r''⟩
      · rw [rend_false_none hs]
        exact sepScan_no_sep (splitFirst_none hs) p1 p2
      · obtain ⟨hre, hnot⟩ := splitFirst_some hs
        have hlen2 : r''.length ≤ n := by
          rw [hre] at hlen
          simp only [List.length_append, List.length_cons] at hlen
          omega
        rcases t with _ | ⟨a, t'⟩
        · rw [rend_false_some hs, if_pos rfl, List.nil_append, sepScan_cons,
            if_pos rfl, hb, afterOk_rend_true, ih.2 r'' p1 hlen2]
          rfl
        · rw [rend_false_some hs, if_neg (by simp)]
          have ha : is_blank_para a = false := by
            apply hhead a (t' ++ MARK_SEPARATOR :: r'')
            rw [hre, List.cons_append]
          have hnrt := @rtrimB_ne_nil a t' ha
          have hns : MARK_SEPARATOR ∉ rtrimB (a :: t') := fun hm => hnot (mem_rtrimB hm)
          rw [List.append_assoc, List.singleton_append,
            sepScan_seg _ _ _ _ _ hns (by decide)]
          rcases hrt : rtrimB (a :: t') with _ | ⟨z, zs⟩
          · exact absurd hrt hnrt
          · obtain ⟨w, hw⟩ := getLast?_cons_some z zs
            rw [hw]
            have hbw : is_blank_para w = false :=
              rtrimB_getLast (l := a :: t') (by rw [hrt, hw])
            rw [sepScan_cons, if_pos rfl, afterOk_rend_true,
              ih.2 r'' (some []) hlen2]
            simp [beforeOkB, hbw]
    have Ltail : ∀ (r' : List Para) (p2 : Option Para), r'.length ≤ n + 1 →
        sepScan (some MARK_SEPARATOR) p2 (rend true r') = true := by
      intro r' p2 hlen
      by_cases hd : r'.dropWhile is_blank_para = []
      · rw [rend_true_nil hd]; rfl
      · rcases hu : r'.dropWhile is_blank_para with _ | ⟨y, ys⟩
        · exact absurd hu hd
        · rw [rend_true_cons hd, hu, sepScan_cons, if_neg (by decide)]
          rw [Lhead (y :: ys) (some []) (some MARK_SEPARATOR)
            (by rw [← hu]; exact le_trans (dropWhile_len_le _ _) hlen)
            (fun y' ys' he => by
              have hyy : y' = y := ((List.cons.inj he).1).symm
              rw [hyy]
              exact dropWhile_head_not hu)
            (by simp [beforeOkB, blank_sep_false])]
          rfl
    exact ⟨Lhead, Ltail⟩

/-- The rendered top-level output satisfies the window scan. -/
theorem separator_spacing_renderTop (l : List Para) :
    separator_spacing_ok (renderTop l) = true := by
  unfold separator_spacing_ok
  rcases hs : splitFirst l with _ | ⟨t, r⟩
  · rw [renderTop_none hs]
    exact sepScan_no_sep (splitFirst_none hs) none none
  · obtain ⟨hre, hnot⟩ := splitFirst_some hs
    rw [renderTop_some hs]
    by_cases hrt : rtrimB t = []
    · rw [if_pos hrt, List.nil_append, sepScan_cons, if_pos rfl,
        afterOk_rend_true, (rend_scan r.length).2 r none le_rfl]
      rfl
    · rw [if_neg hrt, List.append_assoc, List.singleton_append,
        sepScan_seg _ _ _ _ _ (fun hm => hnot (mem_rtrimB hm)) (by decide)]
      rcases hrte : rtrimB t with _ | ⟨z, zs⟩
      · exact absurd hrte hrt
      · obtain ⟨w, hw⟩ := getLast?_cons_some z zs
        rw [hw]
        have hbw : is_blank_para w = false :=
          rtrimB_getLast (l := t) (by rw [hrte, hw])
        rw [sepScan_cons, if_pos rfl, afterOk_rend_true,
          (rend_scan r.length).2 r (some []) le_rfl]
        simp [beforeOkB, hbw]

theorem afterOkB_cons_cons {q w : Para} {rest : List Para}
    (h : afterOkB (q :: w :: rest) = true) : q = [] ∧ is_blank_para w = false := by
  simp only [afterOkB, Bool.and_eq_true, decide_eq_true_eq, Bool.not_eq_true'] at h
  exact h

theorem afterOkB_singleton {q : Para} (h : afterOkB [q] = true) : False := by
  simp [afterOkB] at h

theorem beforeOkB_some_some {q w : Para}
    (h : beforeOkB (some q) (some w) = true) : q = [] ∧ is_blank_para w = false := by
  simp only [beforeOkB, Bool.and_eq_true, decide_eq_true_eq, Bool.not_eq_true'] at h
  exact h

theorem beforeOkB_some_none {q : Para} (h : beforeOkB (some q) none = true) : False := by
  simp [beforeOkB] at h

/-- A list that satisfies the window scan is a fixed point of the loop. -/
theorem normSepAux_fix :
    ∀ (n : ℕ) (m : List Para), m.length ≤ n → ∀ (acc : List Para),
      sepScan acc.head? acc.tail.head? m = true →
      normSepAux acc m = acc.reverse ++ m := by
  intro n
  induction n with
  | zero =>
    intro m hlen acc _
    rcases m with _ | _
    · rw [normSepAux_nil]; simp
    · simp at hlen
  | succ n ih =>
    intro m hlen acc hscan
    rcases m with _ | ⟨x, m'⟩
    · rw [normSepAux_nil]; simp
    · rw [sepScan_cons] at hscan
      obtain ⟨h1, h2⟩ := Bool.and_eq_true_iff.mp hscan
      by_cases hx : x = MARK_SEPARATOR
      · rw [if_pos hx] at h1
        obtain ⟨hbefore, hafter⟩ := Bool.and_eq_true_iff.mp h1
        subst hx
        rw [normSepAux_cons_sep]
        -- the accumulator: empty, or restored exactly by the pop/re-push
        have hacc : (acc.dropWhile is_blank_para = [] ∧ acc = []) ∨
            (acc.dropWhile is_blank_para ≠ [] ∧
              [] :: acc.dropWhile is_blank_para = acc) := by
          rcases acc with _ | ⟨q, acc1⟩
          · exact Or.inl ⟨rfl, rfl⟩
          · simp only [List.head?_cons, List.tail_cons] at hbefore
            rcases acc1 with _ | ⟨w, acc2⟩
            · simp only [List.head?_nil] at hbefore
              exact absurd hbefore beforeOkB_some_none
            · simp only [List.head?_cons] at hbefore
              obtain ⟨hq, hw⟩ := beforeOkB_some_some hbefore
              subst hq
              right
              constructor
              · rw [List.dropWhile_cons, if_pos blank_nil_true,
                  List.dropWhile_cons, if_neg (by rw [hw]; simp)]
                simp
              · rw [List.dropWhile_cons, if_pos blank_nil_true,
                  List.dropWhile_cons, if_neg (by rw [hw]; simp)]
        -- the remaining input: empty, or exactly one blank then non-blank
        rcases m' with _ | ⟨q', m''⟩
        · simp only [List.dropWhile_nil, reduceIte]
          rcases hacc with ⟨hd, ha⟩ | ⟨hd, ha⟩
          · rw [hd, ha]
            simp only [reduceIte]
            rw [normSepAux_nil]
            simp
          · rw [if_neg hd, ha, normSepAux_nil]
            simp
        · rcases m'' with _ | ⟨w', m'''⟩
          · exact absurd hafter afterOkB_singleton
          · obtain ⟨hq', hw'⟩ := afterOkB_cons_cons hafter
            subst hq'
            have hdw : ([] :: w' :: m''').dropWhile is_blank_para = w' :: m''' := by
              rw [List.dropWhile_cons, if_pos blank_nil_true,
                List.dropWhile_cons, if_neg (by rw [hw']; simp)]
            rw [hdw, if_neg (show w' :: m''' ≠ [] by simp)]
            have hscan2 : sepScan (some ([] : Para)) (some MARK_SEPARATOR)
                (w' :: m''') = true := by
              rw [sepScan_cons] at h2
              exact (Bool.and_eq_true_iff.mp h2).2
            have hlen2 : (w' :: m''').length ≤ n := by
              simp only [List.length_cons] at hlen ⊢
              omega
            rcases hacc with ⟨hd, ha⟩ | ⟨hd, ha⟩
            · rw [hd, ha]
              simp only [reduceIte]
              rw [ih (w' :: m''') hlen2 ([] :: MARK_SEPARATOR :: []) hscan2]
              simp
            · rw [if_neg hd, ha,
                ih (w' :: m''') hlen2 ([] :: MARK_SEPARATOR :: acc) hscan2]
              simp
      · rw [if_neg hx] at h1
        rw [normSepAux_cons_ne _ _ hx,
          ih m' (by simp only [List.length_cons] at hlen; omega) (x :: acc) h2]
        simp

/-! Evaluation helpers for characters that trigger no replacement. -/

theorem replaceSub_head_notin {pat rep : List Char} :
    ∀ {l : List Char}, (∀ c, pat.head? = some c → c ∉ l) →
      replaceSub pat rep l = l := by
  intro l
  induction l with
  | nil =>
    intro _
    conv_lhs => rw [replaceSub.eq_def]
  | cons c rest ih =>
    intro h
    have hni : ¬(pat ≠ [] ∧ isPrefixOfB pat (c :: rest) = true) := by
      rcases pat with _ | ⟨p0, ps⟩
      · simp
      · intro hcon
        have hpre := hcon.2
        simp only [isPrefixOfB, Bool.and_eq_true, decide_eq_true_eq] at hpre
        exact h p0 rfl (by rw [hpre.1]; exact List.mem_cons_self _ _)
    conv_lhs => rw [replaceSub.eq_def]
    simp only [if_neg hni]
    rw [ih fun d hd hmem => h d hd (List.mem_cons_of_mem _ hmem)]

theorem stripTags_no_lt : ∀ {l : List Char}, '<' ∉ l → stripTags l = l := by
  intro l
  induction l with
  | nil =>
    intro _
    conv_lhs => rw [stripTags.eq_def]
  | cons c rest ih =>
    intro h
    conv_lhs => rw [stripTags.eq_def]
    simp only [if_neg (show ¬(c = '<') from fun he => h (by rw [he]; exact List.mem_cons_self _ _))]
    rw [ih fun hm => h (List.mem_cons_of_mem _ hm)]

theorem pyUnescape_no_amp : ∀ {l : List Char}, '&' ∉ l → pyUnescape l = l := by
  intro l
  induction l with
  | nil =>
    intro _
    conv_lhs => rw [pyUnescape.eq_def]
  | cons c rest ih =>
    intro h
    conv_lhs => rw [pyUnescape.eq_def]
    simp only [if_neg (show ¬(c = '&') from fun he => h (by rw [he]; exact List.mem_cons_self _ _))]
    rw [ih fun hm => h (List.mem_cons_of_mem _ hm)]

theorem html_to_text_plain {s : List Char} (h : '<' ∉ s) : html_to_text s = s := by
  unfold html_to_text
  have e1 : replaceSub "<br />".toList ['\n'] s = s :=
    replaceSub_head_notin fun c hc => by
      rw [(Option.some.inj hc).symm]; exact h
  have e2 : replaceSub "<br/>".toList ['\n'] s = s :=
    replaceSub_head_notin fun c hc => by
      rw [(Option.some.inj hc).symm]; exact h
  have e3 : replaceSub "<br>".toList ['\n'] s = s :=
    replaceSub_head_notin fun c hc => by
      rw [(Option.some.inj hc).symm]; exact h
  rw [e1, e2, e3, stripTags_no_lt h]

theorem sep_transform_dashes :
    separator_transform "----".toList = MARK_SEPARATOR := by
  unfold separator_transform
  rw [if_neg (by decide), if_pos ?_]
  rw [html_to_text_plain (by decide), pyUnescape_no_amp (by decide)]
  decide

theorem norm_sep_single :
    normalize_separator_spacing [MARK_SEPARATOR] = [MARK_SEPARATOR] := by
  unfold normalize_separator_spacing
  rw [normSepAux_cons_sep]
  simp only [List.dropWhile_nil, reduceIte]
  rw [normSepAux_nil]
  rfl

/-- The claim's property as stated: every separator in the list has exactly
one blank paragraph immediately before it and one immediately after it. -/
def sep_surrounded (l : List Para) : Prop :=
  ∀ j : ℕ, l.get? j = some MARK_SEPARATOR →
    1 ≤ j ∧ l.get? (j - 1) = some ([] : Para) ∧ l.get? (j + 1) = some ([] : Para)

/-- Claim C4, counterexample: a single separator-line paragraph yields the
output `[separator]`, whose separator is surrounded by no blanks at all —
the claimed "exactly one blank paragraph on each side" fails at the list
boundaries. -/
theorem C4_sep_spacing_counterexample :
    apply_separator_handling ["----".toList] = [MARK_SEPARATOR] ∧
    ¬ sep_surrounded (apply_separator_handling ["----".toList]) := by
  have heval : apply_separator_handling ["----".toList] = [MARK_SEPARATOR] := by
    unfold apply_separator_handling
    rw [List.map_cons, List.map_nil, sep_transform_dashes]
    exact norm_sep_single
  refine ⟨heval, ?_⟩
  rw [heval]
  intro h
  have h0 := h 0 rfl
  omega

/-- Claim C4, amended: after separator handling, every separator marker is
preceded by exactly one blank paragraph unless it begins the output, and
followed by exactly one blank paragraph unless it ends the output (blank
runs around it are collapsed; no blank is added at the list boundaries). -/
theorem C4_separator_spacing_amended (ps : List Para) :
    separator_spacing_ok (apply_separator_handling ps) = true ∧
    separator_spacing_ok (normalize_separator_spacing ps) = true := by
  constructor
  · unfold apply_separator_handling
    rw [normalize_eq_renderTop]
    exact separator_spacing_renderTop _
  · rw [normalize_eq_renderTop]
    exact separator_spacing_renderTop _

/-- Claim C9: `normalize_separator_spacing` is idempotent. -/
theorem C9_normalize_separator_spacing_idem (ps : List Para) :
    normalize_separator_spacing (normalize_separator_spacing ps) =
      normalize_separator_spacing ps := by
  have hok : separator_spacing_ok (normalize_separator_spacing ps) = true := by
    rw [normalize_eq_renderTop]
    exact separator_spacing_renderTop ps
  have hfix := normSepAux_fix (normalize_separator_spacing ps).length
    (normalize_separator_spacing ps) le_rfl [] hok
  calc normalize_separator_spacing (normalize_separator_spacing ps)
      = normSepAux [] (normalize_separator_spacing ps) := rfl
    _ = [].reverse ++ normalize_separator_spacing ps := hfix
    _ = normalize_separator_spacing ps := by simp

/-! The chapter extractor (`ChapterParser`), claims C2: a streaming state
machine over markup events.  The stdlib `HTMLParser` tokenization (with
`convert_charrefs=True`) is the event source; the embedding works directly
on the event stream it produces. -/

/-- Both-ends whitespace strip, modelling `str.strip()`. -/
def pyStrip (l : List Char) : List Char :=
  ((l.dropWhile pyIsSpace).reverse.dropWhile pyIsSpace).reverse

/-- One character of `html.escape(s, quote=True)`. -/
def escChar (c : Char) : List Char :=
  if c = '&' then "&amp;".toList
  else if c = '<' then "&lt;".toList
  else if c = '>' then "&gt;".toList
  else if c = '"' then "&quot;".toList
  else if c = '\'' then "&#x27;".toList
  else [c]

/-- `html.escape(s, quote=True)`. -/
def pyHtmlEscape (s : List Char) : List Char := (s.map escChar).flatten

/-- An attribute list as `HTMLParser` hands it to the tag handlers:
name/value pairs, the value possibly absent. -/
abbrev AttrList := List (List Char × Option (List Char))

/-- `dict(attrs).get(key)`: last duplicate wins; `none` when missing. -/
def dictGet (key : List Char) (attrs : AttrList) : Option (Option (List Char)) :=
  (attrs.reverse.find? fun kv => decide (kv.1 = key)).map Prod.snd

/-- `attrs_dict.get(key) or ""`, collapsing a missing or `None` value. -/
def attrStr (key : List Char) (attrs : AttrList) : List Char :=
  match dictGet key attrs with
  | some (some v) => v
  | _ => []

/-- `str.split()` with no argument: split on whitespace runs, no empties. -/
def splitWSAux (cur : List Char) : List Char → List (List Char)
  | [] => if cur = [] then [] else [cur.reverse]
  | c :: rest =>
    if pyIsSpace c then
      if cur = [] then splitWSAux [] rest else cur.reverse :: splitWSAux [] rest
    else splitWSAux (c :: cur) rest

/-- `has_class(attrs, class_name)`: the class attribute, split on
whitespace, contains the class name. -/
def has_class (attrs : AttrList) (className : List Char) : Bool :=
  match dictGet "class".toList attrs with
  | some (some cls) => if cls = [] then false else decide (className ∈ splitWSAux [] cls)
  | _ => false

/-- Markup events as delivered by the tokenizer. -/
inductive HtmlEvent where
  | startTag (tag : List Char) (attrs : AttrList)
  | startEndTag (tag : List Char) (attrs : AttrList)
  | endTag (tag : List Char)
  | textData (s : List Char)
deriving DecidableEq

/-- `ChapterParser`'s mutable state. -/
structure ChapterState where
  titleParts : List (List Char)
  paragraphs : List Para
  removeFurigana : Bool
  rubySkipDepth : ℕ
  inTitle : Bool
  textBlockDepth : ℕ
  inP : Bool
  currentHtmlParts : List (List Char)
  currentTextParts : List (List Char)
  blockLabelEnd : Option Para
deriving DecidableEq

/-- `ChapterParser.__init__`. -/
def ChapterState.init (removeFurigana : Bool) : ChapterState :=
  ⟨[], [], removeFurigana, 0, false, 0, false, [], [], none⟩

/-- The `<img ...>` fragment built by the parser when the tag carries a
nonempty `src`. -/
def imgFragment (attrs : AttrList) : Option (List Char) :=
  let src := attrStr "src".toList attrs
  if src = [] then none
  else
    let alt := attrStr "alt".toList attrs
    let altAttr :=
      if alt ≠ [] then " alt=\"".toList ++ pyHtmlEscape alt ++ "\"".toList
      else " alt=\"\"".toList
    some ("<img src=\"".toList ++ pyHtmlEscape src ++ "\"".toList ++
      altAttr ++ " />".toList)

/-- `ChapterParser.handle_starttag`. -/
def chapterStart (st : ChapterState) (tag : List Char) (attrs : AttrList) :
    ChapterState :=
  if tag = "img".toList ∧ st.textBlockDepth > 0 ∧ st.inP then
    match imgFragment attrs with
    | some frag => { st with currentHtmlParts := st.currentHtmlParts ++ [frag] }
    | none => st
  else if tag = "rt".toList ∨ tag = "rp".toList then
    if st.removeFurigana then { st with rubySkipDepth := st.rubySkipDepth + 1 }
    else if st.textBlockDepth > 0 ∧ st.inP then
      { st with currentHtmlParts :=
          st.currentHtmlParts ++ ["<".toList ++ tag ++ ">".toList] }
    else st
  else if tag = "ruby".toList then
    if ¬st.removeFurigana ∧ st.textBlockDepth > 0 ∧ st.inP then
      { st with currentHtmlParts := st.currentHtmlParts ++ ["<ruby>".toList] }
    else st
  else if tag = "h1".toList ∧ has_class attrs "p-novel__title".toList then
    { st with inTitle := true }
  else if tag = "div".toList then
    if st.textBlockDepth > 0 then
      { st with textBlockDepth := st.textBlockDepth + 1 }
    else
      let isPreface := has_class attrs "p-novel__text--preface".toList
      let isAfterword := has_class attrs "p-novel__text--afterword".toList
      if has_class attrs "p-novel__text".toList ∨ isPreface ∨ isAfterword then
        if isPreface then
          { st with
            textBlockDepth := 1
            blockLabelEnd := some MARK_PREFACE_END
            paragraphs := st.paragraphs ++ [MARK_PREFACE] }
        else if isAfterword then
          { st with
            textBlockDepth := 1
            blockLabelEnd := some MARK_AFTERWORD_END
            paragraphs := st.paragraphs ++ [MARK_AFTERWORD] }
        else { st with textBlockDepth := 1, blockLabelEnd := none }
      else st
  else if st.textBlockDepth > 0 ∧ tag = "p".toList then
    { st with
      inP := true
      currentHtmlParts := []
      currentTextParts := [] }
  else if st.textBlockDepth > 0 ∧ st.inP ∧ tag = "br".toList then
    { st with
      currentHtmlParts := st.currentHtmlParts ++ ["<br />".toList]
      currentTextParts := st.currentTextParts ++ [['\n']] }
  else st

/-- `ChapterParser.handle_startendtag`. -/
def chapterStartEnd (st : ChapterState) (tag : List Char) (attrs : AttrList) :
    ChapterState :=
  if st.textBlockDepth > 0 ∧ st.inP then
    if tag = "br".toList then
      { st with
        currentHtmlParts := st.currentHtmlParts ++ ["<br />".toList]
        currentTextParts := st.currentTextParts ++ [['\n']] }
    else if tag = "img".toList then
      match imgFragment attrs with
      | some frag => { st with currentHtmlParts := st.currentHtmlParts ++ [frag] }
      | none => st
    else st
  else st

/-- `ChapterParser.handle_endtag`. -/
def chapterEnd (st : ChapterState) (tag : List Char) : ChapterState :=
  if tag = "rt".toList ∨ tag = "rp".toList then
    if st.removeFurigana then
      if st.rubySkipDepth > 0 then
        { st with rubySkipDepth := st.rubySkipDepth - 1 }
      else st
    else if st.textBlockDepth > 0 ∧ st.inP then
      { st with currentHtmlParts :=
          st.currentHtmlParts ++ ["</".toList ++ tag ++ ">".toList] }
    else st
  else if tag = "ruby".toList then
    if ¬st.removeFurigana ∧ st.textBlockDepth > 0 ∧ st.inP then
      { st with currentHtmlParts := st.currentHtmlParts ++ ["</ruby>".toList] }
    else st
  else if tag = "h1".toList ∧ st.inTitle then
    { st with inTitle := false }
  else if tag = "div".toList ∧ st.textBlockDepth > 0 then
    if st.textBlockDepth - 1 = 0 then
      let ps1 := match st.blockLabelEnd with
        | some lbl => st.paragraphs ++ [lbl]
        | none => st.paragraphs
      let ps2 := if ps1 ≠ [] ∧ ps1.getLast? ≠ some [] then ps1 ++ [[]] else ps1
      { st with
        textBlockDepth := 0
        blockLabelEnd := none
        paragraphs := ps2 }
    else { st with textBlockDepth := st.textBlockDepth - 1 }
  else if tag = "p".toList ∧ st.inP then
    let htmlContent := st.currentHtmlParts.flatten
    let textContent := st.currentTextParts.flatten
    { st with
      inP := false
      currentHtmlParts := []
      currentTextParts := []
      paragraphs := st.paragraphs ++
        [if textContent.all pyIsSpace ∧ htmlContent.all pyIsSpace then []
         else htmlContent] }
  else st

/-- `ChapterParser.handle_data`. -/
def chapterData (st : ChapterState) (data : List Char) : ChapterState :=
  if st.removeFurigana ∧ st.rubySkipDepth > 0 then st
  else if st.inTitle then
    { st with titleParts := st.titleParts ++ [normalize_japanese_punct data] }
  else if st.textBlockDepth > 0 ∧ st.inP then
    let normalized := normalize_japanese_punct data
    { st with
      currentHtmlParts := st.currentHtmlParts ++ [pyHtmlEscape normalized]
      currentTextParts := st.currentTextParts ++ [normalized] }
  else st

/-- Dispatch of one markup event, as `HTMLParser.feed` does. -/
def chapterStep (st : ChapterState) : HtmlEvent → ChapterState
  | .startTag tag attrs => chapterStart st tag attrs
  | .startEndTag tag attrs => chapterStartEnd st tag attrs
  | .endTag tag => chapterEnd st tag
  | .textData s => chapterData st s

/-- The trailing-blank trimming loop of `parse_chapter_page`:
`while paragraphs and paragraphs[-1] == "": paragraphs.pop()`. -/
def rstripEmpty (l : List Para) : List Para :=
  (l.reverse.dropWhile fun p => decide (p = ([] : Para))).reverse

/-- `parse_chapter_page` over a markup event stream: run the parser, trim
trailing blanks, return the title and the paragraphs. -/
def parse_chapter_events (removeFurigana : Bool) (events : List HtmlEvent) :
    List Char × List Para :=
  let st := events.foldl chapterStep (ChapterState.init removeFurigana)
  (pyStrip st.titleParts.flatten, rstripEmpty st.paragraphs)

/-- The event stream of a chapter page with a preface block holding one
sentence, followed by a body text block holding one empty paragraph tag. -/
def c2Events : List HtmlEvent :=
  [.startTag "div".toList
      [("class".toList, some "p-novel__text p-novel__text--preface".toList)],
   .startTag "p".toList [],
   .textData "sentence".toList,
   .endTag "p".toList,
   .endTag "div".toList,
   .startTag "div".toList [("class".toList, some "p-novel__text".toList)],
   .startTag "p".toList [],
   .endTag "p".toList,
   .endTag "div".toList]

/-- Claim C2, counterexample: extraction does not produce
`[preface-start, "sentence", preface-end, blank]` — the trailing-blank trim
removes the empty paragraph's blank marker as well. -/
theorem C2_preface_blank_counterexample :
    (parse_chapter_events false c2Events).2 ≠
      [MARK_PREFACE, "sentence".toList, MARK_PREFACE_END, []] := by
  decide

/-- Claim C2, amended: before trimming, the parser state holds
`[preface-start, "sentence", preface-end, blank, blank]` (the spurious
block-exit blank and the empty paragraph's blank); trailing-blank trimming
removes every trailing blank, so extraction returns
`[preface-start, "sentence", preface-end]`. -/
theorem C2_preface_blank_amended :
    (c2Events.foldl chapterStep (ChapterState.init false)).paragraphs =
      [MARK_PREFACE, "sentence".toList, MARK_PREFACE_END, [], []] ∧
    (parse_chapter_events false c2Events).2 =
      [MARK_PREFACE, "sentence".toList, MARK_PREFACE_END] := by
  constructor <;> decide

/-! Concurrent chapter download (`download_chapters`), claim C3. -/

/-- A downloaded chapter. -/
structure Chapter where
  title : List Char
  paragraphs : List Para
  url : List Char
deriving DecidableEq

/-- The concurrent branch of `download_chapters`: a `results` array of
`None`s sized to the input; as futures complete — in an arbitrary order
`order` over the submission indices — each result is written at its item's
original index (`results[index] = chapter`); a failed item (modelled as
`fetch i = none`, the skip-errors case) leaves its slot `None`; finally the
non-`None` entries are collected in array order. -/
def download_results (n : ℕ) (fetch : ℕ → Option Chapter) (order : List ℕ) :
    List Chapter :=
  (order.foldl (fun res i => res.set i (fetch i))
    (List.replicate n (none : Option Chapter))).filterMap id

theorem foldl_set_get (fetch : ℕ → Option Chapter) :
    ∀ (order : List ℕ) (res : List (Option Chapter)) (j : ℕ), order.Nodup →
      (order.foldl (fun res i => res.set i (fetch i)) res).get? j =
        if j ∈ order then (if j < res.length then some (fetch j) else none)
        else res.get? j := by
  intro order
  induction order with
  | nil =>
    intro res j _
    simp
  | cons i order' ih =>
    intro res j hnd
    obtain ⟨hni, hnd'⟩ := List.nodup_cons.mp hnd
    rw [List.foldl_cons, ih (res.set i (fetch i)) j hnd']
    by_cases hj : j ∈ order'
    · rw [if_pos hj, if_pos (List.mem_cons_of_mem _ hj), List.length_set]
    · rw [if_neg hj]
      by_cases hij : j = i
      · subst hij
        rw [if_pos (List.mem_cons_self _ _)]
        by_cases hlt : j < res.length
        · rw [if_pos hlt, List.get?_set_eq_of_lt _ hlt]
        · rw [if_neg hlt, List.set_eq_of_length_le (by omega),
            List.get?_len_le (by omega)]
      · rw [if_neg (by
          intro hmem
          rcases List.mem_cons.mp hmem with h | h
          · exact hij h
          · exact hj h),
          List.get?_set_ne _ _ (fun he => hij he.symm)]

theorem filterMap_id_map (f : ℕ → Option Chapter) :
    ∀ (l : List ℕ), (l.map f).filterMap id = l.filterMap f := by
  intro l
  induction l with
  | nil => rfl
  | cons x xs ih =>
    rw [List.map_cons, List.filterMap_cons, List.filterMap_cons]
    rcases f x with _ | c <;> simp [ih]

/-- Claim C3: for any completion order that is a permutation of the
submission indices, the collected result list equals the input-order
sequence of successful items — the order-preserving subsequence of the
input restricted to successes, with failures absent rather than
null-filled. -/
theorem C3_download_order (n : ℕ) (fetch : ℕ → Option Chapter) (order : List ℕ)
    (hperm : order.Perm (List.range n)) :
    download_results n fetch order = (List.range n).filterMap fetch := by
  have hnodup : order.Nodup := hperm.symm.nodup (List.nodup_range _)
  have hmem : ∀ j, j ∈ order ↔ j < n := fun j => by
    rw [hperm.mem_iff, List.mem_range]
  unfold download_results
  have harr : order.foldl (fun res i => res.set i (fetch i))
      (List.replicate n (none : Option Chapter)) = (List.range n).map fetch := by
    apply List.ext_get?
    intro j
    rw [foldl_set_get fetch order _ j hnodup, List.length_replicate]
    by_cases hj : j < n
    · rw [if_pos ((hmem j).mpr hj), if_pos hj, List.get?_map,
        List.get?_range hj]
      rfl
    · rw [if_neg (fun hc => hj ((hmem j).mp hc)),
        List.get?_len_le (by rw [List.length_replicate]; omega),
        List.get?_len_le (by rw [List.length_map, List.length_range]; omega)]
  rw [harr, filterMap_id_map]

/-- A fetch outcome with one failing item, for the C3 witness. -/
def c3Fetch : ℕ → Option Chapter := fun i =>
  if i = 1 then none else some ⟨"t".toList, [], "u".toList⟩

/-- Witness for C3 at a concrete out-of-order completion. -/
theorem C3_download_order_witness :
    download_results 3 c3Fetch [2, 0, 1] = (List.range 3).filterMap c3Fetch :=
  C3_download_order 3 c3Fetch [2, 0, 1] (by decide)

/-! Rate limiting (`RateLimiter`), claim C6.  The limiter's mutable fields
are the state; `wait` models one `wait()` call entered at monotonic time
`now`, with the idealized semantics that `time.sleep(d)` returns exactly
`d` later, so the returned grant timestamp is `now + sleep_for`.  A list
of entry times models any interleaving of concurrent callers: the lock
serializes the body, so calls execute in some total order. -/

/-- Mutable state of a `RateLimiter`: `min_interval` and `_next_time`. -/
structure RateLimiterState where
  min_interval : ℚ
  next_time : ℚ
deriving DecidableEq

/-- `RateLimiter.__init__(min_interval)` at construction time `t0`:
clamps the interval at zero and schedules the first grant. -/
def RateLimiterState.init (m t0 : ℚ) : RateLimiterState :=
  { min_interval := max 0 m
    next_time := if 0 < max 0 m then t0 + max 0 m else 0 }

/-- `RateLimiter.wait()` entered at time `now`: returns the updated state
and the grant timestamp (the time at which the call returns). -/
def wait (s : RateLimiterState) (now : ℚ) : RateLimiterState × ℚ :=
  if s.min_interval ≤ 0 then (s, now)
  else if now < s.next_time then
    ({ s with next_time := s.next_time + s.min_interval }, s.next_time)
  else
    ({ s with next_time := now + s.min_interval }, now)

/-- Serialized sequence of `wait()` calls at the given entry times. -/
def runWaits : RateLimiterState → List ℚ → RateLimiterState × List ℚ
  | s, [] => (s, [])
  | s, t :: ts =>
    let r := wait s t
    let rest := runWaits r.1 ts
    (rest.1, r.2 :: rest.2)

theorem wait_grant (s : RateLimiterState) (hI : 0 < s.min_interval) (now : ℚ) :
    (wait s now).1.min_interval = s.min_interval ∧
    (wait s now).1.next_time = (wait s now).2 + s.min_interval ∧
    s.next_time ≤ (wait s now).2 := by
  unfold wait
  rw [if_neg (not_le.mpr hI)]
  by_cases h : now < s.next_time
  · rw [if_pos h]; exact ⟨rfl, rfl, le_refl _⟩
  · rw [if_neg h]; exact ⟨rfl, rfl, le_of_not_lt h⟩

theorem runWaits_chain : ∀ (ts : List ℚ) (s : RateLimiterState),
    0 < s.min_interval →
    (∀ g ∈ (runWaits s ts).2, s.next_time ≤ g) ∧
    List.Chain' (fun a b => a + s.min_interval ≤ b) (runWaits s ts).2 := by
  intro ts
  induction ts with
  | nil => intro s _; simp [runWaits]
  | cons t ts ih =>
    intro s hI
    obtain ⟨hmin, hnext, hge⟩ := wait_grant s hI t
    have hI' : 0 < (wait s t).1.min_interval := hmin ▸ hI
    obtain ⟨ihlb, ihch⟩ := ih (wait s t).1 hI'
    rw [hmin] at ihch
    simp only [runWaits]
    constructor
    · intro g hg
      rcases List.mem_cons.mp hg with h | h
      · exact h ▸ hge
      · have hlb := ihlb g h
        calc s.next_time ≤ (wait s t).2 := hge
          _ ≤ (wait s t).2 + s.min_interval := le_add_of_nonneg_right hI.le
          _ = (wait s t).1.next_time := hnext.symm
          _ ≤ g := hlb
    · rw [List.chain'_cons']
      refine ⟨?_, ihch⟩
      intro y hy
      have hmem : y ∈ (runWaits (wait s t).1 ts).2 := List.mem_of_mem_head? hy
      have hlb := ihlb y hmem
      rw [hnext] at hlb
      exact hlb

theorem runWaits_zero : ∀ (ts : List ℚ) (s : RateLimiterState),
    s.min_interval ≤ 0 → runWaits s ts = (s, ts) := by
  intro ts
  induction ts with
  | nil => intro s _; rfl
  | cons t ts ih =>
    intro s h
    simp only [runWaits, wait, if_pos h, ih s h]

/-- Claim C6: with `min_interval > 0`, for any serialized sequence of
`wait()` calls (any entry times, hence any number of concurrent callers),
consecutive grant timestamps differ by at least `min_interval`; with a
non-positive constructor argument the clamped interval is zero and every
`wait()` returns immediately without touching the state. -/
theorem C6_rate_limiter_spacing (m t0 : ℚ) (ts : List ℚ) :
    (0 < m → List.Chain' (fun a b => a + m ≤ b)
        (runWaits (RateLimiterState.init m t0) ts).2) ∧
    (m ≤ 0 → runWaits (RateLimiterState.init m t0) ts =
        (RateLimiterState.init m t0, ts)) := by
  constructor
  · intro hm
    have hI : (RateLimiterState.init m t0).min_interval = m := by
      simp [RateLimiterState.init, max_eq_right hm.le]
    have h := (runWaits_chain ts (RateLimiterState.init m t0)
      (by rw [hI]; exact hm)).2
    rwa [hI] at h
  · intro hm
    exact runWaits_zero ts _ (by simp [RateLimiterState.init, max_eq_left hm])

theorem C6_rate_limiter_spacing_witness :
    (0 : ℚ) < 1 ∧ List.Chain' (fun a b => a + (1 : ℚ) ≤ b)
      (runWaits (RateLimiterState.init 1 0) [0, 0, 5]).2 :=
  ⟨by norm_num, (C6_rate_limiter_spacing 1 0 [0, 0, 5]).1 (by norm_num)⟩

/-! TOC pagination (`main` download loop), claim C7.  The page fetch and
parse are abstracted as a finite association list from page URLs to the
page's next link: a URL missing from the list models a fetch error (the
function returns), an entry `(u, none)` a page whose `page_next` is falsy
(so `next_url` becomes the empty string), and `(u, some v)` a page whose
joined next URL is `v`.  The loop is modeled with explicit fuel; the
termination content is that fuel `graph.length + 1` is always enough. -/

def findPage : List (List Char × Option (List Char)) → List Char →
    Option (Option (List Char))
  | [], _ => none
  | e :: rest, url => if e.1 = url then some e.2 else findPage rest url

/-- The `while next_url:` loop of `main`: checks the empty-URL condition,
then the `seen_pages` cycle guard, then fetches; returns the list of page
URLs fetched, in order, or `none` if the fuel runs out. -/
def tocWalk (graph : List (List Char × Option (List Char))) :
    ℕ → List Char → List (List Char) → Option (List (List Char))
  | 0, _, _ => none
  | fuel + 1, url, seen =>
    if url = [] then some []
    else if url ∈ seen then some []
    else
      match findPage graph url with
      | none => some []
      | some nxt =>
        (tocWalk graph fuel (nxt.getD []) (url :: seen)).map
          (fun v => url :: v)

/-- Number of graph keys not yet visited; the loop's decreasing measure. -/
def freshCount (graph : List (List Char × Option (List Char)))
    (seen : List (List Char)) : ℕ :=
  ((graph.map Prod.fst).filter (fun k => decide (k ∉ seen))).length

theorem findPage_mem :
    ∀ {g : List (List Char × Option (List Char))} {url : List Char}
      {v : Option (List Char)},
    findPage g url = some v → url ∈ g.map Prod.fst := by
  intro g
  induction g with
  | nil => intro url v h; cases h
  | cons e rest ih =>
    intro url v h
    simp only [findPage] at h
    by_cases he : e.1 = url
    · simp only [List.map_cons]
      exact List.mem_cons.mpr (Or.inl he.symm)
    · rw [if_neg he] at h
      exact List.mem_cons_of_mem _ (ih h)

theorem filter_len_mono (p q : List Char → Bool)
    (h : ∀ a, p a = true → q a = true) :
    ∀ l : List (List Char), (l.filter p).length ≤ (l.filter q).length := by
  intro l
  induction l with
  | nil => simp
  | cons a rest ih =>
    cases hp : p a with
    | true =>
      have hq := h a hp
      simp only [List.filter_cons, hp, hq, if_true, List.length_cons]
      omega
    | false =>
      cases hq : q a with
      | true =>
        simp only [List.filter_cons, hp, hq, if_true, if_false,
          List.length_cons, Bool.false_eq_true]
        omega
      | false =>
        simpa only [List.filter_cons, hp, hq, Bool.false_eq_true,
          if_false] using ih

theorem filter_seen_lt (url : List Char) :
    ∀ (l : List (List Char)) (seen : List (List Char)),
      url ∈ l → url ∉ seen →
      (l.filter (fun k => decide (k ∉ url :: seen))).length <
        (l.filter (fun k => decide (k ∉ seen))).length := by
  intro l
  induction l with
  | nil => intro seen h _; cases h
  | cons k rest ih =>
    intro seen hmem hns
    by_cases hk : k = url
    · subst hk
      have h1 : (decide (k ∉ k :: seen)) = false := by simp
      have h2 : (decide (k ∉ seen)) = true := by simpa using hns
      simp only [List.filter_cons, h1, h2, if_true, Bool.false_eq_true,
        if_false, List.length_cons]
      have hmono := filter_len_mono (fun a => decide (a ∉ k :: seen))
        (fun a => decide (a ∉ seen))
        (fun a ha => by
          simp only [decide_eq_true_eq] at ha ⊢
          exact fun hin => ha (List.mem_cons_of_mem _ hin)) rest
      omega
    · have hcond : (decide (k ∉ url :: seen)) = (decide (k ∉ seen)) := by
        by_cases hks : k ∈ seen
        · simp [hks]
        · simp [hks, List.mem_cons, hk]
      have hmem' : url ∈ rest := by
        rcases List.mem_cons.mp hmem with h | h
        · exact absurd h.symm hk
        · exact h
      cases hc : (decide (k ∉ seen)) with
      | true =>
        rw [hc] at hcond
        simp only [List.filter_cons, hcond, hc, if_true, List.length_cons]
        have := ih seen hmem' hns
        omega
      | false =>
        rw [hc] at hcond
        simpa only [List.filter_cons, hcond, hc, Bool.false_eq_true,
          if_false] using ih seen hmem' hns

theorem tocWalk_some :
    ∀ (fuel : ℕ) (g : List (List Char × Option (List Char)))
      (url : List Char) (seen : List (List Char)),
    freshCount g seen < fuel →
    ∃ visited, tocWalk g fuel url seen = some visited ∧
      visited.Nodup ∧ ∀ u ∈ visited, u ∉ seen := by
  intro fuel
  induction fuel with
  | zero => intro g url seen h; exact absurd h (Nat.not_lt_zero _)
  | succ fuel ih =>
    intro g url seen hf
    simp only [tocWalk]
    by_cases h0 : url = []
    · rw [if_pos h0]; exact ⟨[], rfl, by simp, by simp⟩
    rw [if_neg h0]
    by_cases hs : url ∈ seen
    · rw [if_pos hs]; exact ⟨[], rfl, by simp, by simp⟩
    rw [if_neg hs]
    cases hl : findPage g url with
    | none => exact ⟨[], rfl, by simp, by simp⟩
    | some nxt =>
      have hkey : url ∈ g.map Prod.fst := findPage_mem hl
      have hdec := filter_seen_lt url (g.map Prod.fst) seen hkey hs
      obtain ⟨v, hv, hnd, hfree⟩ := ih g (nxt.getD []) (url :: seen) (by
        unfold freshCount at hf ⊢
        omega)
      refine ⟨url :: v, ?_, ?_, ?_⟩
      · show Option.map (fun v => url :: v)
            (tocWalk g fuel (nxt.getD []) (url :: seen)) = some (url :: v)
        rw [hv]
        rfl
      · exact List.nodup_cons.mpr
          ⟨fun hc => (hfree url hc) (List.mem_cons_self _ _), hnd⟩
      · intro u hu
        rcases List.mem_cons.mp hu with rfl | hu'
        · exact hs
        · exact fun hus => hfree u hu' (List.mem_cons_of_mem _ hus)

theorem tocWalk_mono :
    ∀ (f f' : ℕ) (g : List (List Char × Option (List Char)))
      (url : List Char) (seen : List (List Char)) (v : List (List Char)),
    f ≤ f' → tocWalk g f url seen = some v →
    tocWalk g f' url seen = some v := by
  intro f
  induction f with
  | zero => intro f' g url seen v _ h; simp [tocWalk] at h
  | succ f ih =>
    intro f' g url seen v hle h
    obtain ⟨f2, rfl⟩ : ∃ k, f' = k + 1 := ⟨f' - 1, by omega⟩
    simp only [tocWalk] at h ⊢
    by_cases h0 : url = []
    · rw [if_pos h0] at h ⊢; exact h
    rw [if_neg h0] at h ⊢
    by_cases hs : url ∈ seen
    · rw [if_pos hs] at h ⊢; exact h
    rw [if_neg hs] at h ⊢
    cases hl : findPage g url with
    | none => rw [hl] at h; exact h
    | some nxt =>
      rw [hl] at h
      replace h : Option.map (fun v => url :: v)
          (tocWalk g f (nxt.getD []) (url :: seen)) = some v := h
      rcases Option.map_eq_some'.mp h with ⟨w, hw, hv⟩
      show Option.map (fun v => url :: v)
          (tocWalk g f2 (nxt.getD []) (url :: seen)) = some v
      rw [ih f2 g _ _ w (by omega) hw]
      simp [hv]

/-- Claim C7: the TOC pagination walk terminates on every page graph,
including cyclic ones: with any fuel exceeding the number of pages the
walk returns a definite visited list (never exhausting the fuel), the
result is independent of the fuel, and no page URL is fetched twice (a
repeated URL ends the walk instead of being re-fetched). -/
theorem C7_toc_pagination_terminates
    (graph : List (List Char × Option (List Char))) (url0 : List Char) :
    ∃ visited, visited.Nodup ∧
      ∀ fuel, graph.length < fuel →
        tocWalk graph fuel url0 [] = some visited := by
  have hb : freshCount graph [] < graph.length + 1 := by
    unfold freshCount
    have h1 := List.length_filter_le
      (fun k => decide (k ∉ ([] : List (List Char)))) (graph.map Prod.fst)
    have h2 : (graph.map Prod.fst).length = graph.length :=
      List.length_map _ _
    omega
  obtain ⟨v, hv, hnd, _⟩ := tocWalk_some (graph.length + 1) graph url0 [] hb
  exact ⟨v, hnd, fun fuel hf =>
    tocWalk_mono (graph.length + 1) fuel graph url0 [] v (by omega) hv⟩

/-- On a two-page cycle the walk fetches each page once and stops. -/
theorem tocWalk_cycle_example :
    tocWalk [("a".toList, some "b".toList), ("b".toList, some "a".toList)]
      3 "a".toList [] = some ["a".toList, "b".toList] := by
  decide

/-! Flat-text output (`write_txt`), claim C8.  Per-paragraph text cleaning
(`replace_img_tags_for_txt` followed by `html.unescape` of `html_to_text`)
is abstracted as a parameter `render` taking the chapter's base URL and
the paragraph; the claim is proved for every such cleaning function, so
the abstraction only strengthens the statement. -/

/-- The constant `SEPARATOR_LINE = "-" * 32`. -/
def SEPARATOR_LINE : Para := List.replicate 32 '-'

/-- The expression `next((ln for ln in reversed(lines) if ln != ""), "")`
inside `append_block`: the last non-empty output line, default empty. -/
def lastNonEmpty (lines : List Para) : Para :=
  (lines.reverse.filter (fun ln => decide (ln ≠ []))).headD []

/-- The nested `append_block` of `write_txt`: merges a section block into
the output lines, dropping a leading separator line that would duplicate
the last non-empty line, dropping leading blanks after a blank, and
inserting one blank between two non-blank lines. -/
def append_block (lines block : List Para) : List Para :=
  if block = [] then lines
  else
    let block1 :=
      if block.headD [] = SEPARATOR_LINE ∧ lastNonEmpty lines = SEPARATOR_LINE
      then block.tail else block
    if block1 = [] then lines
    else
      let block2 :=
        if lines.getLast? = some ([] : Para)
        then block1.dropWhile (fun p => decide (p = ([] : Para)))
        else block1
      if block2 = [] then lines
      else
        let lines1 :=
          if lines ≠ [] ∧ lines.getLast? ≠ some ([] : Para) ∧
              block2.headD [] ≠ []
          then lines ++ [([] : Para)] else lines
        lines1 ++ block2

/-- The `section_map` of `write_txt`. -/
def section_map (p : Para) : Option (List Para) :=
  if p = MARK_PREFACE then some [SEPARATOR_LINE, [], "前書き".toList, []]
  else if p = MARK_AFTERWORD then some [SEPARATOR_LINE, [], "後書き".toList, []]
  else if p = MARK_PREFACE_END then some [SEPARATOR_LINE]
  else if p = MARK_AFTERWORD_END then some [SEPARATOR_LINE]
  else if p = MARK_SEPARATOR then some [SEPARATOR_LINE]
  else none

/-- One iteration of the paragraph loop in `write_txt`. -/
def txtPara (render : List Char → Para → Para) (base : List Char)
    (lines : List Para) (para : Para) : List Para :=
  match section_map para with
  | some s => append_block lines s
  | none => if para = [] then lines ++ [([] : Para)]
            else lines ++ [render base para]

/-- The `out_lines` list assembled by `write_txt`: title, optional author
line, blank, then per chapter the title, a blank, the paragraphs, and a
trailing blank. -/
def write_txt_lines (title author : List Char) (chapters : List Chapter)
    (book_url : List Char) (render : List Char → Para → Para) :
    List Para :=
  let head := [title] ++
    (if author ≠ [] then [("作者：".toList ++ author)] else []) ++ [([] : Para)]
  chapters.foldl (fun lines c =>
    let base := if c.url ≠ [] then c.url else book_url
    (c.paragraphs.foldl (txtPara render base)
      (lines ++ [c.title, ([] : Para)])) ++ [([] : Para)]) head

/-- The exact text written: `"\n".join(out_lines).strip() + "\n"`. -/
def write_txt_content (title author : List Char) (chapters : List Chapter)
    (book_url : List Char) (render : List Char → Para → Para) :
    List Char :=
  pyStrip (List.intercalate ['\n']
    (write_txt_lines title author chapters book_url render)) ++ ['\n']

theorem head?_dropWhile_false (p : Char → Bool) :
    ∀ (l : List Char) (c : Char),
      (l.dropWhile p).head? = some c → p c = false := by
  intro l
  induction l with
  | nil => intro c h; cases h
  | cons a rest ih =>
    intro c h
    by_cases ha : p a = true
    · simp only [List.dropWhile_cons, ha, reduceIte] at h
      exact ih c h
    · have ha' : p a = false := by
        cases hpa : p a with
        | false => rfl
        | true => exact absurd hpa ha
      simp only [List.dropWhile_cons, ha', Bool.false_eq_true, reduceIte,
        List.head?_cons] at h
      rw [← Option.some.inj h]
      exact ha'

theorem pyStrip_getLast (l : List Char) (c : Char) :
    (pyStrip l).getLast? = some c → pyIsSpace c = false := by
  intro h
  unfold pyStrip at h
  rw [List.getLast?_reverse] at h
  exact head?_dropWhile_false pyIsSpace _ c h

/-- Claim C8: for every title, author, chapter list, book URL and
paragraph-cleaning function, the flat-text output of `write_txt` ends with
exactly one trailing newline — its last character is a newline and the
character before it is not whitespace, so no trailing blank lines precede
the final newline. -/
theorem C8_write_txt_trailing_newline (title author : List Char)
    (chapters : List Chapter) (book_url : List Char)
    (render : List Char → Para → Para) :
    (write_txt_content title author chapters book_url render).getLast? =
        some '\n' ∧
    ∀ c, (write_txt_content title author chapters book_url
        render).dropLast.getLast? = some c → pyIsSpace c = false := by
  unfold write_txt_content
  constructor
  · exact List.getLast?_concat _
  · intro c h
    rw [List.dropLast_concat] at h
    exact pyStrip_getLast _ c h

theorem C8_write_txt_trailing_newline_witness :
    pyIsSpace 'T' = false :=
  (C8_write_txt_trailing_newline "T".toList [] [] []
    (fun _ p => p)).2 'T' (by decide)

/-! The retry loop of `_fetch_url`, claim C10.  Each attempt's outcome is
an oracle: success (urlopen returns), an HTTP error with a status code, or
a network-level error (URLError, socket timeout, SSL error).  The result
distinguishes a normal return, an exception propagating out of the loop,
and falling through the loop to the trailing `RuntimeError`. -/

/-- Outcome of one `urlopen` attempt. -/
inductive AttemptOutcome where
  | success
  | httpError (code : ℤ)
  | netError
deriving DecidableEq

/-- The test `e.code in (429, 500, 502, 503, 504)`. -/
def retryable (code : ℤ) : Bool :=
  code = 429 || code = 500 || code = 502 || code = 503 || code = 504

/-- How `_fetch_url` terminates. -/
inductive FetchResult where
  | ok
  | raised
  | fellThrough
deriving DecidableEq

/-- The body of `for attempt in range(retries + 1)` over the remaining
attempt indices: success returns; a retryable HTTP error or any network
error continues if `attempt < retries`, else the exception is re-raised;
an exhausted list is the fall-through to the `RuntimeError`. -/
def fetchGo (attempts : ℕ → AttemptOutcome) (retries : ℤ) :
    List ℕ → FetchResult
  | [] => .fellThrough
  | a :: rest =>
    match attempts a with
    | .success => .ok
    | .httpError code =>
      if retryable code = true ∧ (a : ℤ) < retries then
        fetchGo attempts retries rest
      else .raised
    | .netError =>
      if (a : ℤ) < retries then fetchGo attempts retries rest
      else .raised

/-- `_fetch_url` with the given attempt oracle and `retries`: the loop
runs over `range(retries + 1)` (empty when `retries + 1 <= 0`). -/
def fetch_url (attempts : ℕ → AttemptOutcome) (retries : ℤ) : FetchResult :=
  fetchGo attempts retries (List.range (retries + 1).toNat)

theorem fetchGo_ne (attempts : ℕ → AttemptOutcome) (retries : ℤ) :
    ∀ l : List ℕ, (∃ a ∈ l, ¬((a : ℤ) < retries)) →
      fetchGo attempts retries l ≠ .fellThrough := by
  intro l
  induction l with
  | nil => intro h; rcases h with ⟨a, ha, _⟩; cases ha
  | cons a rest ih =>
    intro h
    simp only [fetchGo]
    cases hat : attempts a with
    | success => simp
    | httpError code =>
      show (if retryable code = true ∧ (a : ℤ) < retries then
          fetchGo attempts retries rest else .raised) ≠ .fellThrough
      by_cases hc : retryable code = true ∧ (a : ℤ) < retries
      · rw [if_pos hc]
        apply ih
        rcases h with ⟨x, hx, hxr⟩
        rcases List.mem_cons.mp hx with rfl | hx'
        · exact absurd hc.2 hxr
        · exact ⟨x, hx', hxr⟩
      · rw [if_neg hc]; simp
    | netError =>
      show (if (a : ℤ) < retries then
          fetchGo attempts retries rest else .raised) ≠ .fellThrough
      by_cases hc : (a : ℤ) < retries
      · rw [if_pos hc]
        apply ih
        rcases h with ⟨x, hx, hxr⟩
        rcases List.mem_cons.mp hx with rfl | hx'
        · exact absurd hc hxr
        · exact ⟨x, hx', hxr⟩
      · rw [if_neg hc]; simp

/-- Claim C10: for `retries >= 0`, `_fetch_url` either returns normally
from inside the retry loop or re-raises the final attempt's exception;
the fall-through `RuntimeError` after the loop is unreachable. -/
theorem C10_fetch_url_no_fallthrough (attempts : ℕ → AttemptOutcome)
    (retries : ℤ) (h : 0 ≤ retries) :
    fetch_url attempts retries = .ok ∨
      fetch_url attempts retries = .raised := by
  have hne : fetch_url attempts retries ≠ .fellThrough := by
    unfold fetch_url
    apply fetchGo_ne
    refine ⟨retries.toNat, ?_, ?_⟩
    · apply List.mem_range.mpr
      omega
    · rw [Int.toNat_of_nonneg h]
      exact lt_irrefl _
  cases hr : fetch_url attempts retries with
  | ok => exact Or.inl rfl
  | raised => exact Or.inr rfl
  | fellThrough => exact absurd hr hne

theorem C10_fetch_url_no_fallthrough_witness :
    (0 : ℤ) ≤ 0 ∧
      (fetch_url (fun _ => .netError) 0 = .ok ∨
        fetch_url (fun _ => .netError) 0 = .raised) :=
  ⟨le_refl 0, C10_fetch_url_no_fallthrough (fun _ => .netError) 0 (le_refl 0)⟩

end Syosetu2Epub
